import Mathlib

/-!
Verification of the cjmines CLI Minesweeper repository.

Two components are embedded from the source:

* the generic CSP engine of `src/csp/csp.hpp` / `src/csp/csp.cpp`
  (`CSPSolver::solve`, `select_unassigned_variable`, `is_consistent`);
* the board operations of `src/game_logic.cpp` (`reveal_cell`,
  `reveal_adjacent_cells`, `toggle_flag_cell`, `flag_cell`,
  `flag_adjacent_cells`, `field_clear`).

C++ `std::unordered_map` values are modelled as association lists with at
most one binding per key; machine `int` is modelled as `Int`.  Code that can
fail to return normally (a thrown `std::out_of_range` from `.at`, or the
unbounded recursion reachable through the `select_unassigned_variable`
fallback) is modelled with `Option`: a `none` result of `CSPSolver.solve` or
of `reveal_cell` means the C++ call does not return normally.  Recursive
functions are defined with explicit fuel; the canonical fuel bound is proved
sufficient for every terminating execution that the theorems below touch.
-/

/-! ## The generic CSP engine (src/csp/csp.hpp, src/csp/csp.cpp) -/

/-- CSP variable names: `CSPSolver::Variable = std::string`. -/
abbrev Variable := String

/-- Partial assignments: `CSPSolver::Assignment = std::unordered_map<Variable, int>`,
modelled as an association list (at most one binding per key in any state the
C++ map can be in). -/
abbrev Assignment := List (Variable × Int)

/-- A constraint is `std::function<bool(const Assignment&)>`.  The `Option`
result models that the stored closure may throw when evaluated (as the
example constraints in `csp.hpp` do, via `assignment.at(...)` on a key that
is absent): `none` is a thrown exception. -/
abbrev Constraint := Assignment → Option Bool

/-- Map lookup, `unordered_map::find` (also used for `::at`, whose failure the
caller turns into an exception). -/
def lookupL {α : Type} : List (Variable × α) → Variable → Option α
  | [], _ => none
  | p :: rest, v => if p.1 = v then some p.2 else lookupL rest v

/-- The write `assignment[var] = value`: `operator[]` updates the binding when
the key is present and inserts a new binding otherwise. -/
def insertA : Assignment → Variable → Int → Assignment
  | [], v, x => [(v, x)]
  | p :: rest, v, x => if p.1 = v then (v, x) :: rest else p :: insertA rest v x

/-- The call `assignment.erase(var)`: removes the binding for `var`. -/
def eraseA (a : Assignment) (v : Variable) : Assignment :=
  a.filter (fun p => p.1 ≠ v)

/-- The solver object: the `variables` vector, the `domains` map and the
registered `constraints`, exactly the private state of `class CSPSolver`. -/
structure CSPSolver where
  vars : List Variable
  domains : List (Variable × List Int)
  constraints : List Constraint

/-- `CSPSolver::is_consistent`: checks the registered constraints in order
against the current (possibly partial) assignment; a thrown exception
(`none`) propagates. -/
def is_consistent : List Constraint → Assignment → Option Bool
  | [], _ => some true
  | c :: cs, a =>
    match c a with
    | none => none
    | some false => some false
    | some true => is_consistent cs a

/-- `CSPSolver::select_unassigned_variable`: the first registered variable
that the assignment does not bind, and the sentinel `""` when every
registered variable is bound (the "Should never reach here" branch). -/
def select_unassigned_variable (s : CSPSolver) (a : Assignment) : Variable :=
  match s.vars.find? (fun v => (lookupL a v).isNone) with
  | some var => var
  | none => ""

/-- The `for (int value : domains.at(var))` loop body of `CSPSolver::solve`:
bind the value, check consistency, recurse on success, and erase the binding
before trying the next value.  `solveNext` is the recursive call at one less
fuel.  The result is layered: outer `none` = out of fuel (the C++ recursion
does not terminate within the canonical bound), `some none` = a C++
exception, `some (some (a, b))` = the call returns `b` leaving the
by-reference assignment equal to `a`. -/
def tryValues (s : CSPSolver) (var : Variable)
    (solveNext : Assignment → Option (Option (Assignment × Bool))) :
    List Int → Assignment → Option (Option (Assignment × Bool))
  | [], a => some (some (a, false))
  | x :: xs, a =>
    let a1 := insertA a var x
    match is_consistent s.constraints a1 with
    | none => some none
    | some false => tryValues s var solveNext xs (eraseA a1 var)
    | some true =>
      match solveNext a1 with
      | none => none
      | some none => some none
      | some (some (a2, true)) => some (some (a2, true))
      | some (some (a2, false)) => tryValues s var solveNext xs (eraseA a2 var)

/-- `CSPSolver::solve` with explicit fuel.  Fuel `0` is exhaustion; otherwise
the function mirrors the C++ body: immediate success when the assignment's
size equals the variable count, else select a variable, fetch its domain
(`domains.at(var)` throws, i.e. `some none`, when the map has no entry) and
iterate over the domain values. -/
def solveF (s : CSPSolver) : Nat → Assignment → Option (Option (Assignment × Bool))
  | 0, _ => none
  | fuel + 1, a =>
    if a.length = s.vars.length then some (some (a, true))
    else
      let var := select_unassigned_variable s a
      match lookupL s.domains var with
      | none => some none
      | some dom => tryValues s var (solveF s fuel) dom a

/-- The number of registered variables the assignment leaves unbound; the
recursion depth of a normal `CSPSolver::solve` run is bounded by it. -/
def unassignedCount (s : CSPSolver) (a : Assignment) : Nat :=
  (s.vars.filter (fun v => (lookupL a v).isNone)).length

/-- `CSPSolver::solve` (the spec's `extend`).  `some (a, b)` means the call
returns `b` leaving the by-reference assignment equal to `a`; `none` means
the call does not return normally (a thrown exception, or recursion past the
canonical fuel bound, which is proved unreachable for well-formed inputs). -/
def CSPSolver.solve (s : CSPSolver) (a : Assignment) : Option (Assignment × Bool) :=
  (solveF s (unassignedCount s a + 1) a).join

/-! ### Well-formedness predicates for solver states -/

/-- An association list that is a real map: at most one binding per key. -/
def NodupKeys (a : Assignment) : Prop := (a.map Prod.fst).Nodup

/-- Every bound key is a registered variable. -/
def KeysIn (s : CSPSolver) (a : Assignment) : Prop := ∀ p ∈ a, p.1 ∈ s.vars

/-- Every bound value is drawn from its variable's registered domain. -/
def InDomains (s : CSPSolver) (a : Assignment) : Prop :=
  ∀ v x, lookupL a v = some x → ∀ d, lookupL s.domains v = some d → x ∈ d

/-- Every registered variable is bound. -/
def CompleteOn (s : CSPSolver) (a : Assignment) : Prop :=
  ∀ v ∈ s.vars, ∃ x, lookupL a v = some x

/-- Assignment `a` binds a subset of what `b` binds, with the same values. -/
def SubA (a b : Assignment) : Prop := ∀ v x, lookupL a v = some x → lookupL b v = some x

/-- The spec's contract for constraints (§4.3): a constraint never rejects a
partial assignment that some satisfying extension completes — absent
variables are treated as unknown. -/
def Conservative (c : Constraint) : Prop :=
  ∀ a b, SubA a b → c b = some true → c a = some true

/-- A constraint whose evaluation never throws. -/
def TotalC (c : Constraint) : Prop := ∀ a, (c a).isSome

/-- The instance has a complete in-domain assignment satisfying every
registered constraint. -/
def Satisfiable (s : CSPSolver) : Prop :=
  ∃ sol, NodupKeys sol ∧ KeysIn s sol ∧ CompleteOn s sol ∧ InDomains s sol ∧
    is_consistent s.constraints sol = some true

/-! ### The example program of csp.hpp (`main`) -/

/-- The example constraint `A != B` exactly as registered in `main`: it
evaluates `assignment.at("A") != assignment.at("B")`, so it throws (`none`)
whenever either variable is unbound. -/
def exConstraintAB : Constraint := fun a =>
  match lookupL a "A", lookupL a "B" with
  | some x, some y => some (decide (x ≠ y))
  | _, _ => none

/-- The example constraint `B != C` from `main`. -/
def exConstraintBC : Constraint := fun a =>
  match lookupL a "B", lookupL a "C" with
  | some x, some y => some (decide (x ≠ y))
  | _, _ => none

/-- The example constraint `A != C` from `main`. -/
def exConstraintAC : Constraint := fun a =>
  match lookupL a "A", lookupL a "C" with
  | some x, some y => some (decide (x ≠ y))
  | _, _ => none

/-- The unsatisfiable replacement constraint `A == B` of spec Scenario C,
written in the same `.at`-indexing style as the example program. -/
def exConstraintABeq : Constraint := fun a =>
  match lookupL a "A", lookupL a "B" with
  | some x, some y => some (decide (x = y))
  | _, _ => none

/-- The example instance of `main`: variables A, B, C with domain {1,2,3} and
the three registered disequality constraints. -/
def exCSP : CSPSolver :=
  { vars := ["A", "B", "C"]
  , domains := [("A", [1, 2, 3]), ("B", [1, 2, 3]), ("C", [1, 2, 3])]
  , constraints := [exConstraintAB, exConstraintBC, exConstraintAC] }

/-- The Scenario C variant: the constraint `A != B` replaced by `A == B`. -/
def exCSPeq : CSPSolver :=
  { vars := ["A", "B", "C"]
  , domains := [("A", [1, 2, 3]), ("B", [1, 2, 3]), ("C", [1, 2, 3])]
  , constraints := [exConstraintABeq, exConstraintBC, exConstraintAC] }

/-! ### The Deduction Propagator (spec §4.4) -/

/-- Modelled from the spec: the value SAFE of a frontier variable's domain
{SAFE, MINE}.  The Deduction Propagator lives in `solver.hpp`, which the
repository's `src/` does not contain (only `game_logic.cpp` includes it), so
its procedure is taken from spec §4.4. -/
def SAFE : Int := 0

/-- Modelled from the spec: the value MINE of a frontier variable's domain
{SAFE, MINE} (see `SAFE`). -/
def MINE : Int := 1

/-- Modelled from the spec: one forcing attempt of the Deduction Propagator —
invoke the CSP Engine with the single pre-bound value and report whether the
run succeeds. -/
def attemptSucceeds (s : CSPSolver) (pre : Assignment) : Bool :=
  match s.solve pre with
  | some (_, true) => true
  | _ => false

/-- Modelled from the spec (§4.4): `x` is classified forced-safe when only
the SAFE attempt succeeds. -/
def forcedSafe (s : CSPSolver) (x : Variable) : Prop :=
  attemptSucceeds s [(x, SAFE)] = true ∧ attemptSucceeds s [(x, MINE)] = false

/-- Modelled from the spec (§4.4): `x` is classified forced-mine when only
the MINE attempt succeeds. -/
def forcedMine (s : CSPSolver) (x : Variable) : Prop :=
  attemptSucceeds s [(x, MINE)] = true ∧ attemptSucceeds s [(x, SAFE)] = false

/-! ## The board operations (src/game_logic.hpp, src/game_logic.cpp) -/

/-- The `Cell` struct of `game_logic.hpp`. -/
structure Cell where
  is_mine : Bool
  is_revealed : Bool
  is_flagged : Bool
  safe_start : Bool
  adjacent_mines : Int
deriving DecidableEq, Repr

/-- A default-constructed `Cell` (all fields false / zero). -/
def defaultCell : Cell := ⟨false, false, false, false, 0⟩

/-- `Board = std::vector<std::vector<Cell>>`. -/
abbrev Board := List (List Cell)

/-- List update at an index; out-of-range indices leave the list unchanged. -/
def modifyIdx {α : Type} (f : α → α) : List α → Nat → List α
  | [], _ => []
  | x :: xs, 0 => f x :: xs
  | x :: xs, n + 1 => x :: modifyIdx f xs n

/-- The length of row 0 (`board[0].size()` / `board.at(0).size()`), against
which the C++ bounds checks compare every column index. -/
def rowLen0 (b : Board) : Nat := (b.getD 0 []).length

/-- The cell `board[i][j]` for Nat indices; the default cell stands in for
out-of-range accesses, which the embedded operations only perform behind a
bounds check on rectangular boards. -/
def cellN (b : Board) (i j : Nat) : Cell := (b.getD i []).getD j defaultCell

/-- The cell `board[row][col]` for the C++ `int` coordinates. -/
def cellAt (b : Board) (row col : Int) : Cell := cellN b row.toNat col.toNat

/-- In-place update of `board[i][j]`. -/
def setCellN (b : Board) (i j : Nat) (f : Cell → Cell) : Board :=
  modifyIdx (fun r => modifyIdx f r j) b i

/-- In-place update of `board[row][col]` for `int` coordinates. -/
def setCell (b : Board) (row col : Int) (f : Cell → Cell) : Board :=
  setCellN b row.toNat col.toNat f

/-- The C++ bounds check `row >= 0 && row < board.size() && col >= 0 &&
col < board[0].size()` (note: the column is always compared against row 0's
length). -/
def inB (b : Board) (row col : Int) : Bool :=
  decide (0 ≤ row) && decide (row < (b.length : Int)) &&
    decide (0 ≤ col) && decide (col < (rowLen0 b : Int))

/-- The offsets `(i, j)` of the double loops `for i in -1..1, for j in -1..1`
(the cell itself included, as in the source). -/
def offsetsList : List (Int × Int) :=
  [(-1, -1), (-1, 0), (-1, 1), (0, -1), (0, 0), (0, 1), (1, -1), (1, 0), (1, 1)]

/-- The flagged-neighbor count of `reveal_cell` (in-bounds positions around
`(row, col)`, the cell itself included, whose cell is flagged). -/
def countFlagged (b : Board) (row col : Int) : Nat :=
  (offsetsList.filter (fun ij =>
    inB b (row + ij.1) (col + ij.2) && (cellAt b (row + ij.1) (col + ij.2)).is_flagged)).length

/-- The chord loop of `reveal_cell`: recursively reveal every in-bounds,
unflagged position around `(row, col)`, discarding each recursive result (as
the source does) but keeping the board. -/
def chordLoop (f : Board → Int → Int → Option (Board × Bool)) (row col : Int) :
    List (Int × Int) → Board → Option Board
  | [], b => some b
  | ij :: rest, b =>
    if inB b (row + ij.1) (col + ij.2) && !(cellAt b (row + ij.1) (col + ij.2)).is_flagged then
      match f b (row + ij.1) (col + ij.2) with
      | none => none
      | some (b', _) => chordLoop f row col rest b'
    else chordLoop f row col rest b

/-- The zero-cascade loop of `reveal_cell`: recursively reveal every position
around `(row, col)` with no bounds check (the recursive call performs it),
discarding each recursive result. -/
def zeroLoop (f : Board → Int → Int → Option (Board × Bool)) (row col : Int) :
    List (Int × Int) → Board → Option Board
  | [], b => some b
  | ij :: rest, b =>
    match f b (row + ij.1) (col + ij.2) with
    | none => none
    | some (b', _) => zeroLoop f row col rest b'

/-- `reveal_cell` with explicit fuel (`none` = fuel exhausted; the canonical
bound below is proved sufficient).  Mirrors the source: bounds / revealed /
flagged guard, reveal, mine check, chord cascade when the flagged-neighbor
count equals the cell's adjacent-mine count, zero cascade when the count is
zero. -/
def revealF : Nat → Board → Int → Int → Option (Board × Bool)
  | 0, _, _, _ => none
  | fuel + 1, b, row, col =>
    if !(inB b row col) || (cellAt b row col).is_revealed || (cellAt b row col).is_flagged then
      some (b, true)
    else
      let b1 := setCell b row col (fun c => { c with is_revealed := true })
      if (cellAt b1 row col).is_mine then some (b1, false)
      else
        let adjacent_count := (cellAt b1 row col).adjacent_mines
        match
          (if (countFlagged b1 row col : Int) = adjacent_count then
            chordLoop (revealF fuel) row col offsetsList b1
          else some b1) with
        | none => none
        | some b2 =>
          if (cellAt b2 row col).adjacent_mines = 0 then
            match zeroLoop (revealF fuel) row col offsetsList b2 with
            | none => none
            | some b3 => some (b3, true)
          else some (b2, true)

/-- The number of unrevealed cells; each level of `reveal_cell` recursion
reveals one, so it bounds the recursion depth. -/
def unrevealedCount (b : Board) : Nat :=
  (b.map (fun row => (row.filter (fun c => !c.is_revealed)).length)).sum

/-- `reveal_cell` of `game_logic.cpp`: `some (b', ok)` is the mutated board
and the returned bool; `none` (fuel exhaustion, proved unreachable) would
mean the recursion exceeds the unrevealed-cell bound. -/
def reveal_cell (b : Board) (row col : Int) : Option (Board × Bool) :=
  revealF (unrevealedCount b + 1) b row col

/-- The loop of `reveal_adjacent_cells`: reveal each of the nine positions
around the center in order, returning false as soon as one reveal does. -/
def revealAdjLoop (row col : Int) : List (Int × Int) → Board → Option (Board × Bool)
  | [], b => some (b, true)
  | ij :: rest, b =>
    match reveal_cell b (row + ij.1) (col + ij.2) with
    | none => none
    | some (b', false) => some (b', false)
    | some (b', true) => revealAdjLoop row col rest b'

/-- `reveal_adjacent_cells` of `game_logic.cpp`. -/
def reveal_adjacent_cells (b : Board) (row col : Int) : Option (Board × Bool) :=
  revealAdjLoop row col offsetsList b

/-- `toggle_flag_cell` of `game_logic.cpp`: flips the flag of an in-bounds,
unrevealed cell. -/
def toggle_flag_cell (b : Board) (row col : Int) : Board :=
  if inB b row col && !(cellAt b row col).is_revealed then
    setCell b row col (fun c => { c with is_flagged := !c.is_flagged })
  else b

/-- `flag_cell` of `game_logic.cpp`: flags an in-bounds, unrevealed cell. -/
def flag_cell (b : Board) (row col : Int) : Board :=
  if inB b row col && !(cellAt b row col).is_revealed then
    setCell b row col (fun c => { c with is_flagged := true })
  else b

/-- The loop of `flag_adjacent_cells`. -/
def flagAdjLoop (row col : Int) : List (Int × Int) → Board → Board
  | [], b => b
  | ij :: rest, b => flagAdjLoop row col rest (flag_cell b (row + ij.1) (col + ij.2))

/-- `flag_adjacent_cells` of `game_logic.cpp`. -/
def flag_adjacent_cells (b : Board) (row col : Int) : Board :=
  flagAdjLoop row col offsetsList b

/-- `field_clear` of `game_logic.cpp`: every cell is a flagged mine or a
revealed non-mine. -/
def field_clear (b : Board) : Bool :=
  b.all (fun row => row.all (fun cell =>
    (cell.is_mine && cell.is_flagged) || (!cell.is_mine && cell.is_revealed)))

/-! ### Sequences of the public board operations (for the invariant claim) -/

/-- One public board operation, as dispatched by the game's action map. -/
inductive GameOp where
  | reveal (row col : Int)
  | revealAdjacent (row col : Int)
  | toggleFlag (row col : Int)
  | flag (row col : Int)
  | flagAdjacent (row col : Int)

/-- Apply one operation to the board (the board a revealing operation leaves
behind is its mutated board, whatever bool it returns). -/
def applyOp (b : Board) : GameOp → Board
  | .reveal row col =>
      match reveal_cell b row col with
      | some (b', _) => b'
      | none => b
  | .revealAdjacent row col =>
      match reveal_adjacent_cells b row col with
      | some (b', _) => b'
      | none => b
  | .toggleFlag row col => toggle_flag_cell b row col
  | .flag row col => flag_cell b row col
  | .flagAdjacent row col => flag_adjacent_cells b row col

/-- Apply a sequence of operations left to right. -/
def applyOps (b : Board) (ops : List GameOp) : Board := ops.foldl applyOp b

/-! ### Board predicates -/

/-- No cell is both revealed and flagged (the spec's Cell invariant). -/
abbrev NoRevealedFlagged (b : Board) : Prop :=
  ∀ row ∈ b, ∀ c ∈ row, ¬(c.is_revealed = true ∧ c.is_flagged = true)

/-- The board is rectangular: every row has row 0's length. -/
abbrev Rect (b : Board) : Prop := ∀ r ∈ b, r.length = rowLen0 b

/-- No cell of the board is flagged. -/
abbrev NoFlags (b : Board) : Prop := ∀ row ∈ b, ∀ c ∈ row, c.is_flagged = false

/-- No cell of the board is revealed. -/
abbrev NoRevealed (b : Board) : Prop := ∀ row ∈ b, ∀ c ∈ row, c.is_revealed = false

/-- No zero-count cell of the board is a mine. -/
abbrev ZeroNonMine (b : Board) : Prop :=
  ∀ row ∈ b, ∀ c ∈ row, c.adjacent_mines = 0 → c.is_mine = false

/-- The cell at the position is revealed. -/
def revealedAt (b : Board) (row col : Int) : Prop := (cellAt b row col).is_revealed = true

/-- An in-bounds zero-count cell. -/
def zeroCell (b : Board) (p : Int × Int) : Prop :=
  inB b p.1 p.2 = true ∧ (cellAt b p.1 p.2).adjacent_mines = 0

/-- One hop of the zero-connected region: both endpoints are in-bounds
zero-count cells and the second is one of the nine offsets from the first. -/
def zeroStep (b : Board) (p q : Int × Int) : Prop :=
  zeroCell b p ∧ zeroCell b q ∧ ∃ ij ∈ offsetsList, q = (p.1 + ij.1, p.2 + ij.2)

/-- The zero-connected region of a start cell: positions reachable through
chains of 8-adjacent zero-count cells. -/
def zeroRegion (b : Board) (s p : Int × Int) : Prop :=
  Relation.ReflTransGen (zeroStep b) s p

/-! ### Index-based board predicates (used by the reveal-cascade proofs) -/

/-- Rectangularity, stated over indices. -/
def RectN (b : Board) : Prop := ∀ i : Nat, i < b.length → (b.getD i []).length = rowLen0 b

/-- No flags, stated over indexed cells (out-of-range accesses read the
default cell, which is unflagged). -/
def NoFlagsN (b : Board) : Prop := ∀ i j : Nat, (cellN b i j).is_flagged = false

/-- No zero-count cell is a mine, stated over indexed cells. -/
def ZeroNonMineN (b : Board) : Prop :=
  ∀ i j : Nat, (cellN b i j).adjacent_mines = 0 → (cellN b i j).is_mine = false

/-- No revealed cell, stated over indexed cells. -/
def NoRevealedN (b : Board) : Prop := ∀ i j : Nat, (cellN b i j).is_revealed = false

/-- Boards agree on shape and on every static cell field (mine, flag,
adjacent count); only `is_revealed` may differ. -/
def StaticEq (b b' : Board) : Prop :=
  b'.map (fun r => r.length) = b.map (fun r => r.length) ∧
  ∀ i j : Nat, (cellN b' i j).is_mine = (cellN b i j).is_mine ∧
    (cellN b' i j).is_flagged = (cellN b i j).is_flagged ∧
    (cellN b' i j).adjacent_mines = (cellN b i j).adjacent_mines

/-- Every cell revealed in `b` stays revealed in `b'`. -/
def RevealMono (b b' : Board) : Prop :=
  ∀ i j : Nat, (cellN b i j).is_revealed = true → (cellN b' i j).is_revealed = true

/-- Every zero-count cell freshly revealed between `b` and `b'` has all its
in-bounds neighbors revealed in `b'`. -/
def FreshClosed (b b' : Board) : Prop :=
  ∀ row col : Int, inB b row col = true → revealedAt b' row col →
    (cellAt b row col).is_revealed = false → (cellAt b row col).adjacent_mines = 0 →
    ∀ ij ∈ offsetsList, inB b (row + ij.1) (col + ij.2) = true →
      revealedAt b' (row + ij.1) (col + ij.2)

/-- Every cell revealed in `b'` was already revealed in `b` or was unflagged
in `b` (the reveal operation never reveals a flagged cell). -/
def NewRevealedUnflagged (b b' : Board) : Prop :=
  ∀ i j : Nat, (cellN b' i j).is_revealed = true →
    (cellN b i j).is_revealed = true ∨ (cellN b i j).is_flagged = false

/-- The static hypotheses the cascade claim carries, in index form:
rectangular, unflagged, and no zero-count mines. -/
def StaticOK (b : Board) : Prop := RectN b ∧ NoFlagsN b ∧ ZeroNonMineN b

/-- No cell is both revealed and flagged, stated over indexed cells. -/
def NoRFN (b : Board) : Prop :=
  ∀ i j : Nat, ¬((cellN b i j).is_revealed = true ∧ (cellN b i j).is_flagged = true)

/-- The number of unrevealed cells of one row. -/
def rowUnrev (row : List Cell) : Nat := (row.filter (fun c => !c.is_revealed)).length

/-! ### Concrete instances used by witnesses and counterexamples -/

/-- A one-variable instance with no constraints (trivially satisfiable). -/
def wCSP1 : CSPSolver :=
  { vars := ["A"], domains := [("A", [1])], constraints := [] }

/-- A two-variable instance whose single constraint rejects everything
(unsatisfiable). -/
def wCSP2 : CSPSolver :=
  { vars := ["A", "B"]
  , domains := [("A", [1, 2]), ("B", [1])]
  , constraints := [fun _ => some false] }

/-- A partial-tolerant constraint forcing x to SAFE: true while x is unbound,
and otherwise true exactly when x is bound to 0. -/
def wC8constraint : Constraint := fun a =>
  match lookupL a "x" with
  | none => some true
  | some v => some (decide (v = 0))

/-- A two-variable frontier instance on which the variable x is forced-safe. -/
def wCSP8 : CSPSolver :=
  { vars := ["x", "y"]
  , domains := [("x", [0, 1]), ("y", [0, 1])]
  , constraints := [wC8constraint] }

/-! ### Concrete boards used by witnesses and counterexamples -/

/-- An untouched non-mine cell with zero adjacent mines. -/
def zCell : Cell := ⟨false, false, false, false, 0⟩

/-- An already-revealed non-mine cell with zero adjacent mines. -/
def zrCell : Cell := ⟨false, true, false, false, 0⟩

/-- An untouched mine whose stored adjacent-mine count is zero (the value
`generate_board` leaves on mine cells). -/
def zmCell : Cell := ⟨true, false, false, false, 0⟩

/-- An untouched non-mine cell with one adjacent mine. -/
def n1Cell : Cell := ⟨false, false, false, false, 1⟩

/-- A flagged non-mine cell with one adjacent mine (a wrong flag). -/
def f1Cell : Cell := ⟨false, false, true, false, 1⟩

/-- A revealed non-mine cell with one adjacent mine. -/
def r1Cell : Cell := ⟨false, true, false, false, 1⟩

/-- The 2 by 2 board of the chord-loss scenario: a mine at (1,1), a wrong
flag at (0,1), and true adjacent-mine counts on the non-mine cells. -/
def chordLossBoard : Board := [[n1Cell, f1Cell], [n1Cell, zmCell]]

/-- A 1 by 3 all-zero board whose middle cell is already revealed, which
blocks the cascade from (0,0) to (0,2). -/
def blockedBoard : Board := [[zCell, zrCell, zCell]]

/-- A fresh 1 by 3 board of zero-count cells whose middle cell is a mine
(stored count zero), which blocks the cascade from (0,0) to (0,2). -/
def zeroMineBoard : Board := [[zCell, zmCell, zCell]]

/-- A fresh 2 by 2 board of zero-count non-mine cells. -/
def freshZeroBoard : Board := [[zCell, zCell], [zCell, zCell]]

/-- A board on which every non-mine cell is revealed but the mine is not
flagged. -/
def unflaggedWinBoard : Board := [[zmCell, r1Cell]]

/-- A 1 by 2 board with one flagged cell, used to exercise operation
sequences. -/
def opsBoard : Board := [[n1Cell, zmCell]]

/-- A sequence of the public board operations used to exercise the
revealed-xor-flagged invariant. -/
def wOps : List GameOp :=
  [GameOp.flag 0 1, GameOp.reveal 0 0, GameOp.toggleFlag 0 1,
   GameOp.revealAdjacent 0 0, GameOp.flagAdjacent 0 0]

/-! ## Lemmas: assignments -/

theorem lookupL_eq_none {α : Type} {a : List (Variable × α)} {v : Variable} :
    lookupL a v = none ↔ ∀ p ∈ a, p.1 ≠ v := by
  induction a with
  | nil => simp [lookupL]
  | cons p rest ih =>
    by_cases h : p.1 = v <;> simp [lookupL, h, ih]

theorem lookupL_isSome_mem {α : Type} {a : List (Variable × α)} {v : Variable} {x : α}
    (h : lookupL a v = some x) : v ∈ a.map Prod.fst := by
  induction a with
  | nil => simp [lookupL] at h
  | cons p rest ih =>
    by_cases hp : p.1 = v
    · simp [hp.symm]
    · simp [lookupL, hp] at h
      simp [ih h]

theorem lookupL_mem {a : Assignment} {v : Variable} {x : Int}
    (h : lookupL a v = some x) : (v, x) ∈ a := by
  induction a with
  | nil => simp [lookupL] at h
  | cons p rest ih =>
    obtain ⟨pv, px⟩ := p
    by_cases hp : pv = v
    · subst hp
      simp [lookupL] at h
      subst h
      exact List.mem_cons_self _ _
    · simp [lookupL, hp] at h
      exact List.mem_cons_of_mem _ (ih h)

theorem insertA_fresh {a : Assignment} {v : Variable} (x : Int)
    (h : lookupL a v = none) : insertA a v x = a ++ [(v, x)] := by
  induction a with
  | nil => simp [insertA]
  | cons p rest ih =>
    by_cases hp : p.1 = v
    · simp [lookupL, hp] at h
    · simp [lookupL, hp] at h
      simp [insertA, hp, ih h]

theorem eraseA_insertA_fresh {a : Assignment} {v : Variable} {x : Int}
    (h : lookupL a v = none) : eraseA (insertA a v x) v = a := by
  rw [insertA_fresh x h, eraseA, List.filter_append]
  have h1 : a.filter (fun p => p.1 ≠ v) = a := by
    refine List.filter_eq_self.mpr (fun p hp => ?_)
    simp only [ne_eq, decide_eq_true_eq]
    exact lookupL_eq_none.mp h p hp
  rw [h1]
  simp

theorem lookupL_insertA_self (a : Assignment) (v : Variable) (x : Int) :
    lookupL (insertA a v x) v = some x := by
  induction a with
  | nil => simp [insertA, lookupL]
  | cons p rest ih =>
    by_cases hp : p.1 = v
    · simp [insertA, hp, lookupL]
    · simp [insertA, hp, lookupL, ih]

theorem lookupL_insertA_ne {w v : Variable} (a : Assignment) (x : Int) (h : w ≠ v) :
    lookupL (insertA a v x) w = lookupL a w := by
  induction a with
  | nil => simp [insertA, lookupL, Ne.symm h]
  | cons p rest ih =>
    obtain ⟨pv, px⟩ := p
    by_cases hp : pv = v
    · subst hp
      simp [insertA, lookupL, Ne.symm h]
    · simp [insertA, hp, lookupL, ih]

theorem keys_insertA_fresh {a : Assignment} {v : Variable} (x : Int)
    (h : lookupL a v = none) :
    (insertA a v x).map Prod.fst = a.map Prod.fst ++ [v] := by
  rw [insertA_fresh x h]
  simp

theorem length_insertA_fresh {a : Assignment} {v : Variable} (x : Int)
    (h : lookupL a v = none) : (insertA a v x).length = a.length + 1 := by
  rw [insertA_fresh x h]
  simp

theorem NodupKeys_insertA {a : Assignment} {v : Variable} (x : Int)
    (ha : NodupKeys a) (h : lookupL a v = none) : NodupKeys (insertA a v x) := by
  unfold NodupKeys at *
  rw [keys_insertA_fresh x h]
  rw [List.nodup_append]
  refine ⟨ha, List.nodup_singleton v, ?_⟩
  intro w hw
  simp only [List.mem_singleton]
  intro hwv
  subst hwv
  rcases List.mem_map.mp hw with ⟨p, hp, hfst⟩
  exact lookupL_eq_none.mp h p hp hfst

theorem mem_insertA {a : Assignment} {v : Variable} {x : Int} :
    ∀ p ∈ insertA a v x, p.1 = v ∨ p ∈ a := by
  induction a with
  | nil =>
    intro p hp
    simp [insertA] at hp
    left
    simp [hp]
  | cons q rest ih =>
    intro p hp
    by_cases hq : q.1 = v
    · rw [insertA, if_pos hq] at hp
      rcases List.mem_cons.mp hp with h1 | h1
      · left; simp [h1]
      · right; exact List.mem_cons_of_mem _ h1
    · rw [insertA, if_neg hq] at hp
      rcases List.mem_cons.mp hp with h1 | h1
      · right; simp [h1]
      · rcases ih p h1 with h2 | h2
        · left; exact h2
        · right; exact List.mem_cons_of_mem _ h2

theorem KeysIn_insertA {s : CSPSolver} {a : Assignment} {v : Variable} (x : Int)
    (hk : KeysIn s a) (hv : v ∈ s.vars) : KeysIn s (insertA a v x) := by
  intro p hp
  rcases mem_insertA p hp with h1 | h1
  · rw [h1]; exact hv
  · exact hk p h1

theorem InDomains_insertA {s : CSPSolver} {a : Assignment} {v : Variable} {x : Int}
    (hd : InDomains s a) (hfresh : lookupL a v = none)
    (hx : ∀ d, lookupL s.domains v = some d → x ∈ d) :
    InDomains s (insertA a v x) := by
  intro w y hw d hdom
  by_cases hwv : w = v
  · subst hwv
    rw [lookupL_insertA_self] at hw
    cases hw
    exact hx d hdom
  · rw [lookupL_insertA_ne a x hwv] at hw
    exact hd w y hw d hdom

/-! ## Lemmas: unassigned-variable counting and selection -/

theorem filter_length_le_of_imp {p q : Variable → Bool}
    (h : ∀ w, q w = true → p w = true) :
    ∀ l : List Variable, (l.filter q).length ≤ (l.filter p).length := by
  intro l
  induction l with
  | nil => simp
  | cons w l ih =>
    by_cases hq : q w = true
    · simp [List.filter, hq, h w hq]
      exact ih
    · simp at hq
      by_cases hp : p w = true
      · simp [List.filter, hq, hp]
        exact Nat.le_succ_of_le ih
      · simp at hp
        simp [List.filter, hq, hp]
        exact ih

theorem filter_length_lt_of_imp {p q : Variable → Bool}
    (h : ∀ w, q w = true → p w = true) :
    ∀ {l : List Variable} {v}, v ∈ l → p v = true → q v = false →
      (l.filter q).length < (l.filter p).length := by
  intro l
  induction l with
  | nil => intro v hv; simp at hv
  | cons w l ih =>
    intro v hv hpv hqv
    rcases List.mem_cons.mp hv with h1 | h1
    · subst h1
      simp [List.filter, hpv, hqv]
      exact Nat.lt_succ_of_le (filter_length_le_of_imp h l)
    · by_cases hq : q w = true
      · simp [List.filter, hq, h w hq]
        exact ih h1 hpv hqv
      · simp at hq
        by_cases hp : p w = true
        · simp [List.filter, hq, hp]
          exact Nat.lt_succ_of_lt (ih h1 hpv hqv)
        · simp at hp
          simp [List.filter, hq, hp]
          exact ih h1 hpv hqv

theorem unassignedCount_insertA_lt {s : CSPSolver} {a : Assignment} {v : Variable}
    (x : Int) (hfresh : lookupL a v = none) (hv : v ∈ s.vars) :
    unassignedCount s (insertA a v x) < unassignedCount s a := by
  unfold unassignedCount
  apply filter_length_lt_of_imp (v := v) _ hv
  · simp [hfresh]
  · simp [lookupL_insertA_self]
  · intro w hw
    by_cases hwv : w = v
    · subst hwv
      simp [lookupL_insertA_self] at hw
    · rw [lookupL_insertA_ne a x hwv] at hw
      exact hw

theorem select_spec {s : CSPSolver} {a : Assignment} {var : Variable}
    (h : s.vars.find? (fun v => (lookupL a v).isNone) = some var) :
    lookupL a var = none ∧ var ∈ s.vars := by
  constructor
  · have := List.find?_some h
    simpa [Option.isNone_iff_eq_none] using this
  · exact List.mem_of_find?_eq_some h

theorem select_none_length {s : CSPSolver} {a : Assignment}
    (hnd : s.vars.Nodup) (ha : NodupKeys a) (hk : KeysIn s a)
    (h : s.vars.find? (fun v => (lookupL a v).isNone) = none) :
    a.length = s.vars.length := by
  have hall : ∀ v ∈ s.vars, ∃ x, lookupL a v = some x := by
    intro v hv
    have := List.find?_eq_none.mp h v hv
    simp [Option.isNone_iff_eq_none] at this
    exact Option.ne_none_iff_exists'.mp this
  have hsub1 : (a.map Prod.fst) ⊆ s.vars := by
    intro w hw
    rcases List.mem_map.mp hw with ⟨p, hp, hfst⟩
    rw [← hfst]
    exact hk p hp
  have hsub2 : s.vars ⊆ (a.map Prod.fst) := by
    intro v hv
    rcases hall v hv with ⟨x, hx⟩
    exact lookupL_isSome_mem hx
  have hfin : (a.map Prod.fst).toFinset = s.vars.toFinset := by
    ext w
    simp only [List.mem_toFinset]
    exact ⟨fun hw => hsub1 hw, fun hw => hsub2 hw⟩
  have h1 : (a.map Prod.fst).toFinset.card = (a.map Prod.fst).length :=
    List.toFinset_card_of_nodup ha
  have h2 : s.vars.toFinset.card = s.vars.length :=
    List.toFinset_card_of_nodup hnd
  have := h1 ▸ h2 ▸ congrArg Finset.card hfin
  simpa using this

/-! ## Lemmas: the backtracking engine -/

theorem tryValues_restore {s : CSPSolver} {var : Variable}
    {f : Assignment → Option (Option (Assignment × Bool))}
    (hf : ∀ b b', NodupKeys b → KeysIn s b → f b = some (some (b', false)) → b' = b)
    (hv : var ∈ s.vars) :
    ∀ (l : List Int) (a a' : Assignment), NodupKeys a → KeysIn s a →
      lookupL a var = none →
      tryValues s var f l a = some (some (a', false)) → a' = a := by
  intro l
  induction l with
  | nil =>
    intro a a' _ _ _ h
    simp [tryValues] at h
    exact h.symm
  | cons x xs ih =>
    intro a a' ha hk hfresh h
    simp only [tryValues] at h
    cases hc : is_consistent s.constraints (insertA a var x) with
    | none => simp [hc] at h
    | some b =>
      cases b with
      | false =>
        simp only [hc] at h
        rw [eraseA_insertA_fresh hfresh] at h
        exact ih a a' ha hk hfresh h
      | true =>
        simp only [hc] at h
        cases hrec : f (insertA a var x) with
        | none => simp [hrec] at h
        | some q =>
          cases q with
          | none => simp [hrec] at h
          | some r =>
            obtain ⟨a2, b2⟩ := r
            cases b2 with
            | true => simp [hrec] at h
            | false =>
              simp only [hrec] at h
              have ha1 : NodupKeys (insertA a var x) := NodupKeys_insertA x ha hfresh
              have hk1 : KeysIn s (insertA a var x) := KeysIn_insertA x hk hv
              have h2 := hf _ _ ha1 hk1 hrec
              rw [h2, eraseA_insertA_fresh hfresh] at h
              exact ih a a' ha hk hfresh h

theorem solveF_restore {s : CSPSolver} (hnd : s.vars.Nodup) :
    ∀ (fuel : Nat) (a a' : Assignment), NodupKeys a → KeysIn s a →
      solveF s fuel a = some (some (a', false)) → a' = a := by
  intro fuel
  induction fuel with
  | zero =>
    intro a a' _ _ h
    simp [solveF] at h
  | succ fuel ih =>
    intro a a' ha hk h
    simp only [solveF] at h
    by_cases hlen : a.length = s.vars.length
    · simp [hlen] at h
    · simp only [if_neg hlen] at h
      cases hsel : s.vars.find? (fun v => (lookupL a v).isNone) with
      | none => exact absurd (select_none_length hnd ha hk hsel) hlen
      | some var =>
        have hvar := select_spec hsel
        have hsel2 : select_unassigned_variable s a = var := by
          simp [select_unassigned_variable, hsel]
        rw [hsel2] at h
        cases hdom : lookupL s.domains var with
        | none => simp [hdom] at h
        | some dom =>
          rw [hdom] at h
          exact tryValues_restore (fun b b' => ih b b') hvar.2 dom a a' ha hk hvar.1 h

theorem tryValues_mono {s : CSPSolver} {var : Variable}
    {f g : Assignment → Option (Option (Assignment × Bool))}
    (hfg : ∀ b r, f b = some r → g b = some r) :
    ∀ (l : List Int) (a : Assignment) (r : Option (Assignment × Bool)),
      tryValues s var f l a = some r → tryValues s var g l a = some r := by
  intro l
  induction l with
  | nil =>
    intro a r h
    simpa [tryValues] using h
  | cons x xs ih =>
    intro a r h
    simp only [tryValues] at h ⊢
    cases hc : is_consistent s.constraints (insertA a var x) with
    | none => simp only [hc] at h ⊢; exact h
    | some b =>
      cases b with
      | false =>
        simp only [hc] at h ⊢
        exact ih _ r h
      | true =>
        simp only [hc] at h ⊢
        cases hout : f (insertA a var x) with
        | none => simp [hout] at h
        | some q =>
          rw [hfg _ q hout]
          rw [hout] at h
          cases q with
          | none => exact h
          | some p =>
            obtain ⟨a2, b2⟩ := p
            cases b2 with
            | true => exact h
            | false => exact ih _ r h

theorem solveF_mono {s : CSPSolver} :
    ∀ (fuel : Nat) (a : Assignment) (r : Option (Assignment × Bool)),
      solveF s fuel a = some r → solveF s (fuel + 1) a = some r := by
  intro fuel
  induction fuel with
  | zero =>
    intro a r h
    simp [solveF] at h
  | succ fuel ih =>
    intro a r h
    simp only [solveF] at h ⊢
    by_cases hlen : a.length = s.vars.length
    · simpa [hlen] using h
    · simp only [if_neg hlen] at h ⊢
      cases hdom : lookupL s.domains (select_unassigned_variable s a) with
      | none => simp only [hdom] at h ⊢; exact h
      | some dom =>
        simp only [hdom] at h ⊢
        exact tryValues_mono (fun b q => ih b q) dom a r h

theorem solveF_mono_le {s : CSPSolver} {fuel fuel' : Nat} (hle : fuel ≤ fuel') :
    ∀ (a : Assignment) (r : Option (Assignment × Bool)),
      solveF s fuel a = some r → solveF s fuel' a = some r := by
  induction hle with
  | refl => intro a r h; exact h
  | step hle ih =>
    intro a r h
    exact solveF_mono _ a r (ih a r h)

theorem tryValues_noExhaust {s : CSPSolver} {var : Variable} {fuel : Nat}
    (hnd : s.vars.Nodup) (hv : var ∈ s.vars)
    (hrec : ∀ b, NodupKeys b → KeysIn s b → unassignedCount s b < fuel →
      solveF s fuel b ≠ none) :
    ∀ (l : List Int) (a : Assignment), NodupKeys a → KeysIn s a →
      lookupL a var = none → unassignedCount s a ≤ fuel →
      tryValues s var (solveF s fuel) l a ≠ none := by
  intro l
  induction l with
  | nil =>
    intro a _ _ _ _
    simp [tryValues]
  | cons x xs ih =>
    intro a ha hk hfresh hcount
    simp only [tryValues]
    cases hc : is_consistent s.constraints (insertA a var x) with
    | none => exact Option.some_ne_none _
    | some b =>
      cases b with
      | false =>
        show tryValues s var (solveF s fuel) xs (eraseA (insertA a var x) var) ≠ none
        rw [eraseA_insertA_fresh hfresh]
        exact ih a ha hk hfresh hcount
      | true =>
        have ha1 : NodupKeys (insertA a var x) := NodupKeys_insertA x ha hfresh
        have hk1 : KeysIn s (insertA a var x) := KeysIn_insertA x hk hv
        have hu1 : unassignedCount s (insertA a var x) < fuel :=
          Nat.lt_of_lt_of_le (unassignedCount_insertA_lt x hfresh hv) hcount
        cases hout : solveF s fuel (insertA a var x) with
        | none => exact absurd hout (hrec _ ha1 hk1 hu1)
        | some q =>
          cases q with
          | none => exact Option.some_ne_none _
          | some p =>
            obtain ⟨a2, b2⟩ := p
            cases b2 with
            | true => exact Option.some_ne_none _
            | false =>
              show tryValues s var (solveF s fuel) xs (eraseA a2 var) ≠ none
              have h2 := solveF_restore hnd fuel _ _ ha1 hk1 hout
              rw [h2, eraseA_insertA_fresh hfresh]
              exact ih a ha hk hfresh hcount

theorem solveF_noExhaust {s : CSPSolver} (hnd : s.vars.Nodup) :
    ∀ (fuel : Nat) (a : Assignment), NodupKeys a → KeysIn s a →
      unassignedCount s a < fuel → solveF s fuel a ≠ none := by
  intro fuel
  induction fuel with
  | zero =>
    intro a _ _ hu
    exact absurd hu (Nat.not_lt_zero _)
  | succ fuel ih =>
    intro a ha hk hu
    simp only [solveF]
    by_cases hlen : a.length = s.vars.length
    · simp [hlen]
    · simp only [if_neg hlen]
      cases hsel : s.vars.find? (fun v => (lookupL a v).isNone) with
      | none => exact absurd (select_none_length hnd ha hk hsel) hlen
      | some var =>
        have hvar := select_spec hsel
        have hsel2 : select_unassigned_variable s a = var := by
          simp [select_unassigned_variable, hsel]
        rw [hsel2]
        cases hdom : lookupL s.domains var with
        | none => simp
        | some dom =>
          exact tryValues_noExhaust hnd hvar.2 (fun b hb hkb hub => ih b hb hkb hub)
            dom a ha hk hvar.1 (Nat.lt_succ_iff.mp hu)

theorem solveF_irrel {s : CSPSolver} (hnd : s.vars.Nodup) {a : Assignment}
    (ha : NodupKeys a) (hk : KeysIn s a) {fuel : Nat}
    (hfuel : unassignedCount s a < fuel) :
    solveF s fuel a = solveF s (unassignedCount s a + 1) a := by
  have h1 : solveF s (unassignedCount s a + 1) a ≠ none :=
    solveF_noExhaust hnd _ a ha hk (Nat.lt_succ_self _)
  rcases Option.ne_none_iff_exists'.mp h1 with ⟨r, hr⟩
  rw [hr]
  exact solveF_mono_le hfuel a r hr

theorem tryValues_successLen {s : CSPSolver} {var : Variable}
    {f : Assignment → Option (Option (Assignment × Bool))}
    (hf : ∀ b b', f b = some (some (b', true)) → b'.length = s.vars.length) :
    ∀ (l : List Int) (a a' : Assignment),
      tryValues s var f l a = some (some (a', true)) → a'.length = s.vars.length := by
  intro l
  induction l with
  | nil =>
    intro a a' h
    simp [tryValues] at h
  | cons x xs ih =>
    intro a a' h
    simp only [tryValues] at h
    cases hc : is_consistent s.constraints (insertA a var x) with
    | none => simp [hc] at h
    | some b =>
      cases b with
      | false =>
        simp only [hc] at h
        exact ih _ a' h
      | true =>
        simp only [hc] at h
        cases hout : f (insertA a var x) with
        | none => simp [hout] at h
        | some q =>
          rw [hout] at h
          cases q with
          | none => simp at h
          | some p =>
            obtain ⟨a2, b2⟩ := p
            cases b2 with
            | true =>
              simp at h
              rw [← h]
              exact hf _ _ hout
            | false => exact ih _ a' h

theorem solveF_successLen {s : CSPSolver} :
    ∀ (fuel : Nat) (a a' : Assignment),
      solveF s fuel a = some (some (a', true)) → a'.length = s.vars.length := by
  intro fuel
  induction fuel with
  | zero =>
    intro a a' h
    simp [solveF] at h
  | succ fuel ih =>
    intro a a' h
    simp only [solveF] at h
    by_cases hlen : a.length = s.vars.length
    · simp [hlen] at h
      rw [← h]
      exact hlen
    · simp only [if_neg hlen] at h
      cases hdom : lookupL s.domains (select_unassigned_variable s a) with
      | none => simp [hdom] at h
      | some dom =>
        rw [hdom] at h
        exact tryValues_successLen (fun b b' => ih b b') dom a a' h

/-! ## Lemmas: consistency checking -/

theorem is_consistent_eq_true {cs : List Constraint} {a : Assignment} :
    is_consistent cs a = some true ↔ ∀ c ∈ cs, c a = some true := by
  induction cs with
  | nil => simp [is_consistent]
  | cons c cs ih =>
    cases hc : c a with
    | none => simp [is_consistent, hc]
    | some b =>
      cases b with
      | false => simp [is_consistent, hc]
      | true => simp [is_consistent, hc, ih]

theorem is_consistent_isSome {cs : List Constraint} {a : Assignment}
    (htot : ∀ c ∈ cs, TotalC c) : (is_consistent cs a).isSome := by
  induction cs with
  | nil => simp [is_consistent]
  | cons c cs ih =>
    cases hc : c a with
    | none =>
      have := htot c (List.mem_cons_self _ _) a
      rw [hc] at this
      simp at this
    | some b =>
      cases b with
      | false => simp [is_consistent, hc]
      | true =>
        simp only [is_consistent, hc]
        exact ih (fun c' hc' => htot c' (List.mem_cons_of_mem _ hc'))

theorem is_consistent_of_sub {cs : List Constraint} {a sol : Assignment}
    (hcons : ∀ c ∈ cs, Conservative c) (hsub : SubA a sol)
    (hsol : is_consistent cs sol = some true) : is_consistent cs a = some true := by
  rw [is_consistent_eq_true] at hsol ⊢
  intro c hc
  exact hcons c hc a sol hsub (hsol c hc)

theorem SubA_insertA {a sol : Assignment} {var : Variable} {xsol : Int}
    (hsub : SubA a sol) (hsol : lookupL sol var = some xsol) :
    SubA (insertA a var xsol) sol := by
  intro w y hw
  by_cases hwv : w = var
  · subst hwv
    rw [lookupL_insertA_self] at hw
    cases hw
    exact hsol
  · rw [lookupL_insertA_ne _ _ hwv] at hw
    exact hsub w y hw

/-! ## Lemmas: soundness of a successful run -/

theorem tryValues_sound {s : CSPSolver} {var : Variable} {fuel : Nat} {dom : List Int}
    (hnd : s.vars.Nodup) (hv : var ∈ s.vars) (hdomv : lookupL s.domains var = some dom)
    (hrec : ∀ b b', NodupKeys b → KeysIn s b → InDomains s b →
      solveF s fuel b = some (some (b', true)) →
      (NodupKeys b' ∧ KeysIn s b' ∧ InDomains s b') ∧
        (b.length = s.vars.length → b' = b) ∧
        (b.length ≠ s.vars.length → is_consistent s.constraints b' = some true)) :
    ∀ (l : List Int), (∀ y ∈ l, y ∈ dom) →
      ∀ (a a' : Assignment), NodupKeys a → KeysIn s a → InDomains s a →
        lookupL a var = none →
        tryValues s var (solveF s fuel) l a = some (some (a', true)) →
        (NodupKeys a' ∧ KeysIn s a' ∧ InDomains s a') ∧
          is_consistent s.constraints a' = some true := by
  intro l
  induction l with
  | nil =>
    intro _ a a' _ _ _ _ h
    simp [tryValues] at h
  | cons x xs ih =>
    intro hsub a a' ha hk hd hfresh h
    simp only [tryValues] at h
    cases hc : is_consistent s.constraints (insertA a var x) with
    | none => simp [hc] at h
    | some b =>
      cases b with
      | false =>
        simp only [hc] at h
        rw [eraseA_insertA_fresh hfresh] at h
        exact ih (fun y hy => hsub y (List.mem_cons_of_mem _ hy)) a a' ha hk hd hfresh h
      | true =>
        simp only [hc] at h
        have ha1 : NodupKeys (insertA a var x) := NodupKeys_insertA x ha hfresh
        have hk1 : KeysIn s (insertA a var x) := KeysIn_insertA x hk hv
        have hd1 : InDomains s (insertA a var x) := by
          refine InDomains_insertA hd hfresh (fun d hdd => ?_)
          rw [hdomv] at hdd
          cases hdd
          exact hsub x (List.mem_cons_self _ _)
        cases hout : solveF s fuel (insertA a var x) with
        | none => simp [hout] at h
        | some q =>
          rw [hout] at h
          cases q with
          | none => simp at h
          | some p =>
            obtain ⟨a2, b2⟩ := p
            cases b2 with
            | true =>
              simp at h
              subst h
              have hs := hrec _ _ ha1 hk1 hd1 hout
              refine ⟨hs.1, ?_⟩
              by_cases hlen : (insertA a var x).length = s.vars.length
              · rw [hs.2.1 hlen]
                exact hc
              · exact hs.2.2 hlen
            | false =>
              have hred : tryValues s var (solveF s fuel) xs (eraseA a2 var) =
                  some (some (a', true)) := h
              have h2 := solveF_restore hnd fuel _ _ ha1 hk1 hout
              rw [h2, eraseA_insertA_fresh hfresh] at hred
              exact ih (fun y hy => hsub y (List.mem_cons_of_mem _ hy)) a a' ha hk hd hfresh hred

theorem solveF_sound {s : CSPSolver} (hnd : s.vars.Nodup) :
    ∀ (fuel : Nat) (a a' : Assignment), NodupKeys a → KeysIn s a → InDomains s a →
      solveF s fuel a = some (some (a', true)) →
      (NodupKeys a' ∧ KeysIn s a' ∧ InDomains s a') ∧
        (a.length = s.vars.length → a' = a) ∧
        (a.length ≠ s.vars.length → is_consistent s.constraints a' = some true) := by
  intro fuel
  induction fuel with
  | zero =>
    intro a a' _ _ _ h
    simp [solveF] at h
  | succ fuel ih =>
    intro a a' ha hk hd h
    simp only [solveF] at h
    by_cases hlen : a.length = s.vars.length
    · simp [hlen] at h
      subst h
      exact ⟨⟨ha, hk, hd⟩, fun _ => rfl, fun habs => absurd hlen habs⟩
    · simp only [if_neg hlen] at h
      cases hsel : s.vars.find? (fun v => (lookupL a v).isNone) with
      | none => exact absurd (select_none_length hnd ha hk hsel) hlen
      | some var =>
        have hvar := select_spec hsel
        have hsel2 : select_unassigned_variable s a = var := by
          simp [select_unassigned_variable, hsel]
        rw [hsel2] at h
        cases hdom : lookupL s.domains var with
        | none => simp [hdom] at h
        | some dom =>
          rw [hdom] at h
          have := tryValues_sound hnd hvar.2 hdom (fun b b' => ih b b')
            dom (fun y hy => hy) a a' ha hk hd hvar.1 h
          exact ⟨this.1, fun h1 => absurd h1 hlen, fun _ => this.2⟩

/-! ## Lemmas: a well-formed run neither throws nor diverges -/

theorem tryValues_noCrash {s : CSPSolver} {var : Variable} {fuel : Nat}
    (hnd : s.vars.Nodup) (hv : var ∈ s.vars)
    (htot : ∀ c ∈ s.constraints, TotalC c)
    (hrec : ∀ b, NodupKeys b → KeysIn s b → unassignedCount s b < fuel →
      ∃ r, solveF s fuel b = some (some r)) :
    ∀ (l : List Int) (a : Assignment), NodupKeys a → KeysIn s a →
      lookupL a var = none → unassignedCount s a ≤ fuel →
      ∃ r, tryValues s var (solveF s fuel) l a = some (some r) := by
  intro l
  induction l with
  | nil =>
    intro a _ _ _ _
    exact ⟨(a, false), rfl⟩
  | cons x xs ih =>
    intro a ha hk hfresh hcount
    simp only [tryValues]
    cases hc : is_consistent s.constraints (insertA a var x) with
    | none =>
      have := is_consistent_isSome (a := insertA a var x) htot
      rw [hc] at this
      simp at this
    | some b =>
      cases b with
      | false =>
        show ∃ r, tryValues s var (solveF s fuel) xs (eraseA (insertA a var x) var) =
          some (some r)
        rw [eraseA_insertA_fresh hfresh]
        exact ih a ha hk hfresh hcount
      | true =>
        have ha1 : NodupKeys (insertA a var x) := NodupKeys_insertA x ha hfresh
        have hk1 : KeysIn s (insertA a var x) := KeysIn_insertA x hk hv
        have hu1 : unassignedCount s (insertA a var x) < fuel :=
          Nat.lt_of_lt_of_le (unassignedCount_insertA_lt x hfresh hv) hcount
        rcases hrec _ ha1 hk1 hu1 with ⟨⟨a2, b2⟩, hout⟩
        rw [hout]
        cases b2 with
        | true => exact ⟨(a2, true), rfl⟩
        | false =>
          show ∃ r, tryValues s var (solveF s fuel) xs (eraseA a2 var) = some (some r)
          have h2 := solveF_restore hnd fuel _ _ ha1 hk1 hout
          rw [h2, eraseA_insertA_fresh hfresh]
          exact ih a ha hk hfresh hcount

theorem solveF_noCrash {s : CSPSolver} (hnd : s.vars.Nodup)
    (hdom : ∀ v ∈ s.vars, ∃ d, lookupL s.domains v = some d)
    (htot : ∀ c ∈ s.constraints, TotalC c) :
    ∀ (fuel : Nat) (a : Assignment), NodupKeys a → KeysIn s a →
      unassignedCount s a < fuel → ∃ r, solveF s fuel a = some (some r) := by
  intro fuel
  induction fuel with
  | zero =>
    intro a _ _ hu
    exact absurd hu (Nat.not_lt_zero _)
  | succ fuel ih =>
    intro a ha hk hu
    simp only [solveF]
    by_cases hlen : a.length = s.vars.length
    · exact ⟨(a, true), by simp [hlen]⟩
    · simp only [if_neg hlen]
      cases hsel : s.vars.find? (fun v => (lookupL a v).isNone) with
      | none => exact absurd (select_none_length hnd ha hk hsel) hlen
      | some var =>
        have hvar := select_spec hsel
        have hsel2 : select_unassigned_variable s a = var := by
          simp [select_unassigned_variable, hsel]
        rw [hsel2]
        rcases hdom var hvar.2 with ⟨d, hd⟩
        rw [hd]
        exact tryValues_noCrash hnd hvar.2 htot (fun b hb hkb hub => ih b hb hkb hub)
          d a ha hk hvar.1 (Nat.lt_succ_iff.mp hu)

/-! ## Lemmas: completeness on satisfiable instances -/

theorem tryValues_complete {s : CSPSolver} {var : Variable} {fuel : Nat}
    {sol : Assignment} {xsol : Int}
    (hnd : s.vars.Nodup) (hv : var ∈ s.vars)
    (hdom : ∀ v ∈ s.vars, ∃ d, lookupL s.domains v = some d)
    (htot : ∀ c ∈ s.constraints, TotalC c)
    (hcons : ∀ c ∈ s.constraints, Conservative c)
    (hsolc : is_consistent s.constraints sol = some true)
    (hxsol : lookupL sol var = some xsol)
    (hrec : ∀ b, NodupKeys b → KeysIn s b → SubA b sol →
      unassignedCount s b < fuel → ∃ b', solveF s fuel b = some (some (b', true))) :
    ∀ (l : List Int) (a : Assignment), NodupKeys a → KeysIn s a →
      lookupL a var = none → SubA a sol → unassignedCount s a ≤ fuel → xsol ∈ l →
      ∃ a', tryValues s var (solveF s fuel) l a = some (some (a', true)) := by
  intro l
  induction l with
  | nil =>
    intro a _ _ _ _ _ hmem
    simp at hmem
  | cons x xs ih =>
    intro a ha hk hfresh hsub hcount hmem
    have ha1 : NodupKeys (insertA a var x) := NodupKeys_insertA x ha hfresh
    have hk1 : KeysIn s (insertA a var x) := KeysIn_insertA x hk hv
    have hu1 : unassignedCount s (insertA a var x) < fuel :=
      Nat.lt_of_lt_of_le (unassignedCount_insertA_lt x hfresh hv) hcount
    simp only [tryValues]
    by_cases hx : x = xsol
    · subst hx
      have hsub1 : SubA (insertA a var x) sol := SubA_insertA hsub hxsol
      have hc : is_consistent s.constraints (insertA a var x) = some true :=
        is_consistent_of_sub hcons hsub1 hsolc
      rw [hc]
      rcases hrec _ ha1 hk1 hsub1 hu1 with ⟨a2, hout⟩
      rw [hout]
      exact ⟨a2, rfl⟩
    · have hmem2 : xsol ∈ xs := by
        rcases List.mem_cons.mp hmem with h1 | h1
        · exact absurd h1.symm hx
        · exact h1
      cases hc : is_consistent s.constraints (insertA a var x) with
      | none =>
        have := is_consistent_isSome (a := insertA a var x) htot
        rw [hc] at this
        simp at this
      | some b =>
        cases b with
        | false =>
          show ∃ a', tryValues s var (solveF s fuel) xs (eraseA (insertA a var x) var) =
            some (some (a', true))
          rw [eraseA_insertA_fresh hfresh]
          exact ih a ha hk hfresh hsub hcount hmem2
        | true =>
          rcases solveF_noCrash hnd hdom htot fuel _ ha1 hk1 hu1 with ⟨⟨a2, b2⟩, hout⟩
          rw [hout]
          cases b2 with
          | true => exact ⟨a2, rfl⟩
          | false =>
            show ∃ a', tryValues s var (solveF s fuel) xs (eraseA a2 var) =
              some (some (a', true))
            have h2 := solveF_restore hnd fuel _ _ ha1 hk1 hout
            rw [h2, eraseA_insertA_fresh hfresh]
            exact ih a ha hk hfresh hsub hcount hmem2

theorem solveF_complete {s : CSPSolver} {sol : Assignment}
    (hnd : s.vars.Nodup)
    (hdom : ∀ v ∈ s.vars, ∃ d, lookupL s.domains v = some d)
    (htot : ∀ c ∈ s.constraints, TotalC c)
    (hcons : ∀ c ∈ s.constraints, Conservative c)
    (hsolcomp : CompleteOn s sol) (hsoldom : InDomains s sol)
    (hsolc : is_consistent s.constraints sol = some true) :
    ∀ (fuel : Nat) (a : Assignment), NodupKeys a → KeysIn s a → SubA a sol →
      unassignedCount s a < fuel →
      ∃ a', solveF s fuel a = some (some (a', true)) := by
  intro fuel
  induction fuel with
  | zero =>
    intro a _ _ _ hu
    exact absurd hu (Nat.not_lt_zero _)
  | succ fuel ih =>
    intro a ha hk hsub hu
    simp only [solveF]
    by_cases hlen : a.length = s.vars.length
    · exact ⟨a, by simp [hlen]⟩
    · simp only [if_neg hlen]
      cases hsel : s.vars.find? (fun v => (lookupL a v).isNone) with
      | none => exact absurd (select_none_length hnd ha hk hsel) hlen
      | some var =>
        have hvar := select_spec hsel
        have hsel2 : select_unassigned_variable s a = var := by
          simp [select_unassigned_variable, hsel]
        rw [hsel2]
        rcases hdom var hvar.2 with ⟨d, hd⟩
        rw [hd]
        rcases hsolcomp var hvar.2 with ⟨xsol, hxsol⟩
        have hxd : xsol ∈ d := hsoldom var xsol hxsol d hd
        exact tryValues_complete hnd hvar.2 hdom htot hcons hsolc hxsol
          (fun b hb hkb hsb hub => ih b hb hkb hsb hub)
          d a ha hk hvar.1 hsub (Nat.lt_succ_iff.mp hu) hxd

/-! ## Lemmas: assembling the engine claims -/

theorem lookupL_isSome_of_mem_keys {α : Type} {a : List (Variable × α)} {v : Variable}
    (h : v ∈ a.map Prod.fst) : ∃ x, lookupL a v = some x := by
  induction a with
  | nil => simp at h
  | cons p rest ih =>
    by_cases hp : p.1 = v
    · exact ⟨p.2, by simp [lookupL, hp]⟩
    · have h2 : v ∈ rest.map Prod.fst := by
        rcases List.mem_map.mp h with ⟨q, hq, hfst⟩
        rcases List.mem_cons.mp hq with h1 | h1
        · exact absurd (h1 ▸ hfst) hp
        · exact List.mem_map.mpr ⟨q, h1, hfst⟩
      rcases ih h2 with ⟨x, hx⟩
      exact ⟨x, by simp [lookupL, hp, hx]⟩

theorem complete_of_full_length {s : CSPSolver} {a : Assignment}
    (hnd : s.vars.Nodup) (ha : NodupKeys a) (hk : KeysIn s a)
    (hlen : a.length = s.vars.length) : CompleteOn s a := by
  have hsub : (a.map Prod.fst) ⊆ s.vars := by
    intro w hw
    rcases List.mem_map.mp hw with ⟨p, hp, hfst⟩
    rw [← hfst]
    exact hk p hp
  have hcard : s.vars.toFinset ⊆ (a.map Prod.fst).toFinset → s.vars.toFinset = (a.map Prod.fst).toFinset := fun h => Finset.Subset.antisymm h (by
    intro w hw
    rw [List.mem_toFinset] at hw ⊢
    exact hsub hw)
  have heq : (a.map Prod.fst).toFinset = s.vars.toFinset := by
    apply Finset.eq_of_subset_of_card_le
    · intro w hw
      rw [List.mem_toFinset] at hw ⊢
      exact hsub hw
    · rw [List.toFinset_card_of_nodup hnd, List.toFinset_card_of_nodup ha]
      simp [hlen]
  intro v hv
  have hvk : v ∈ a.map Prod.fst := by
    rw [← List.mem_toFinset, heq, List.mem_toFinset]
    exact hv
  exact lookupL_isSome_of_mem_keys hvk

theorem join_eq_some_iff {α : Type} {x : Option (Option α)} {y : α} :
    x.join = some y ↔ x = some (some y) := by
  cases x with
  | none => simp
  | some z => cases z <;> simp

theorem tryValues_fail_each {s : CSPSolver} {var : Variable} {fuel : Nat}
    (hnd : s.vars.Nodup) (hv : var ∈ s.vars) :
    ∀ (l : List Int) (a a'' : Assignment), NodupKeys a → KeysIn s a →
      lookupL a var = none →
      tryValues s var (solveF s fuel) l a = some (some (a'', false)) →
      ∀ x ∈ l, is_consistent s.constraints (insertA a var x) = some false ∨
        (is_consistent s.constraints (insertA a var x) = some true ∧
          solveF s fuel (insertA a var x) = some (some (insertA a var x, false))) := by
  intro l
  induction l with
  | nil =>
    intro a a'' _ _ _ _ x hx
    simp at hx
  | cons x xs ih =>
    intro a a'' ha hk hfresh h y hy
    simp only [tryValues] at h
    cases hc : is_consistent s.constraints (insertA a var x) with
    | none => simp [hc] at h
    | some b =>
      cases b with
      | false =>
        simp only [hc] at h
        rw [eraseA_insertA_fresh hfresh] at h
        rcases List.mem_cons.mp hy with h1 | h1
        · subst h1
          exact Or.inl hc
        · exact ih a a'' ha hk hfresh h y h1
      | true =>
        simp only [hc] at h
        have ha1 : NodupKeys (insertA a var x) := NodupKeys_insertA x ha hfresh
        have hk1 : KeysIn s (insertA a var x) := KeysIn_insertA x hk hv
        cases hout : solveF s fuel (insertA a var x) with
        | none => simp [hout] at h
        | some q =>
          cases q with
          | none => simp [hout] at h
          | some p =>
            obtain ⟨a2, b2⟩ := p
            cases b2 with
            | true => simp [hout] at h
            | false =>
              have hred : tryValues s var (solveF s fuel) xs (eraseA a2 var) =
                  some (some (a'', false)) := by
                rw [hout] at h
                exact h
              have h2 := solveF_restore hnd fuel _ _ ha1 hk1 hout
              rcases List.mem_cons.mp hy with h1 | h1
              · subst h1
                refine Or.inr ⟨hc, ?_⟩
                rw [hout, h2]
              · rw [h2, eraseA_insertA_fresh hfresh] at hred
                exact ih a a'' ha hk hfresh hred y h1

/-! ## Claim theorems: the CSP engine -/

/-- C1.  For every well-formed CSP instance (distinct registered variables,
a domain entry for each, constraints that never throw and honour the spec's
partial-tolerance contract of §4.3) whose constraint set is satisfiable,
`solve`/`extend` on the empty assignment returns success, and the assignment
it leaves behind binds every registered variable to a value of its domain
and satisfies every registered constraint. -/
theorem extend_satisfiable_succeeds (s : CSPSolver)
    (hnd : s.vars.Nodup)
    (hdom : ∀ v ∈ s.vars, ∃ d, lookupL s.domains v = some d)
    (htot : ∀ c ∈ s.constraints, TotalC c)
    (hcons : ∀ c ∈ s.constraints, Conservative c)
    (hsat : Satisfiable s) :
    ∃ a', s.solve [] = some (a', true) ∧ CompleteOn s a' ∧ InDomains s a' ∧
      is_consistent s.constraints a' = some true := by
  rcases hsat with ⟨sol, hsolnd, hsolk, hsolcomp, hsoldom, hsolc⟩
  have ha : NodupKeys ([] : Assignment) := by simp [NodupKeys]
  have hk : KeysIn s [] := by intro p hp; simp at hp
  have hd : InDomains s [] := by intro v x hvx; simp [lookupL] at hvx
  have hsub : SubA [] sol := by intro v x hvx; simp [lookupL] at hvx
  obtain ⟨a', hrun⟩ := solveF_complete hnd hdom htot hcons hsolcomp hsoldom hsolc
    (unassignedCount s [] + 1) [] ha hk hsub (Nat.lt_succ_self _)
  have hsolve : s.solve [] = some (a', true) := by
    rw [CSPSolver.solve, join_eq_some_iff]
    exact hrun
  have hs := solveF_sound hnd _ [] a' ha hk hd hrun
  have hlen : a'.length = s.vars.length := solveF_successLen _ [] a' hrun
  refine ⟨a', hsolve, complete_of_full_length hnd hs.1.1 hs.1.2.1 hlen, hs.1.2.2, ?_⟩
  by_cases hzero : ([] : Assignment).length = s.vars.length
  · have hvars : s.vars = [] := by
      simpa using List.eq_nil_of_length_eq_zero (by simpa using hzero.symm)
    have hsol : sol = [] := by
      rcases sol with _ | ⟨p, rest⟩
      · rfl
      · have := hsolk p (List.mem_cons_self _ _)
        rw [hvars] at this
        simp at this
    have ha' : a' = [] := hs.2.1 hzero
    rw [ha', ← hsol]
    exact hsolc
  · exact hs.2.2 hzero

/-- Witness for C1 at the trivially satisfiable one-variable instance. -/
theorem extend_satisfiable_succeeds_witness :
    ∃ a', wCSP1.solve [] = some (a', true) ∧ CompleteOn wCSP1 a' ∧ InDomains wCSP1 a' ∧
      is_consistent wCSP1.constraints a' = some true := by
  apply extend_satisfiable_succeeds wCSP1
  · decide
  · intro v hv
    simp [wCSP1] at hv
    subst hv
    exact ⟨[1], rfl⟩
  · intro c hc
    simp [wCSP1] at hc
  · intro c hc
    simp [wCSP1] at hc
  · refine ⟨[("A", 1)], ?_, ?_, ?_, ?_, rfl⟩
    · unfold NodupKeys
      decide
    · intro p hp
      simp at hp
      simp [hp, wCSP1]
    · intro v hv
      simp [wCSP1] at hv
      subst hv
      exact ⟨1, rfl⟩
    · intro v x hvx d hd
      simp [wCSP1, lookupL] at hvx hd
      by_cases hva : "A" = v
      · simp [← hva] at hvx hd
        simp [← hd, hvx]
      · simp [hva] at hvx

/-- C2.  For every instance with distinct registered variables and every
partial input assignment of those variables, a failing `solve`/`extend` call
leaves the assignment exactly as it was at the call. -/
theorem extend_failure_restores (s : CSPSolver) (a a' : Assignment)
    (hnd : s.vars.Nodup) (ha : NodupKeys a) (hk : KeysIn s a)
    (h : s.solve a = some (a', false)) : a' = a := by
  rw [CSPSolver.solve, join_eq_some_iff] at h
  exact solveF_restore hnd _ a a' ha hk h

/-- Witness for C2: the unsatisfiable two-variable instance fails from the
partial assignment binding A to 2 and returns it untouched. -/
theorem extend_failure_restores_witness :
    wCSP2.solve [("A", 2)] = some ([("A", 2)], false) ∧
      ([("A", 2)] : Assignment) = [("A", 2)] := by
  refine ⟨by decide, ?_⟩
  apply extend_failure_restores wCSP2 [("A", 2)]
  · decide
  · unfold NodupKeys
    decide
  · intro p hp
    simp at hp
    simp [hp, wCSP2]
  · decide

/-- C4.  `solve`/`extend` (a) returns success only with an assignment whose
size equals the registered-variable count, (b) returns success immediately
when the input assignment's size already equals that count, and (c) on a
well-formed instance reports failure only after every domain value of the
first unassigned variable in registration order has been tried and has
failed (rejected by the consistency check, or recursively failing with the
binding removed). -/
theorem extend_success_iff_size (s : CSPSolver) (a : Assignment)
    (hnd : s.vars.Nodup) (ha : NodupKeys a) (hk : KeysIn s a) :
    (∀ a', s.solve a = some (a', true) → a'.length = s.vars.length) ∧
    (a.length = s.vars.length → s.solve a = some (a, true)) ∧
    (∀ a', s.solve a = some (a', false) →
      a.length ≠ s.vars.length ∧
      ∃ var dom, s.vars.find? (fun v => (lookupL a v).isNone) = some var ∧
        lookupL s.domains var = some dom ∧
        ∀ x ∈ dom, is_consistent s.constraints (insertA a var x) = some false ∨
          (is_consistent s.constraints (insertA a var x) = some true ∧
            s.solve (insertA a var x) = some (insertA a var x, false))) := by
  refine ⟨?_, ?_, ?_⟩
  · intro a' h
    rw [CSPSolver.solve, join_eq_some_iff] at h
    exact solveF_successLen _ a a' h
  · intro hlen
    rw [CSPSolver.solve, join_eq_some_iff]
    simp [solveF, hlen]
  · intro a' h
    rw [CSPSolver.solve, join_eq_some_iff] at h
    have hlen : a.length ≠ s.vars.length := by
      intro hcontra
      simp [solveF, hcontra] at h
    refine ⟨hlen, ?_⟩
    rw [solveF] at h
    simp only [if_neg hlen] at h
    cases hsel : s.vars.find? (fun v => (lookupL a v).isNone) with
    | none => exact absurd (select_none_length hnd ha hk hsel) hlen
    | some var =>
      have hvar := select_spec hsel
      have hsel2 : select_unassigned_variable s a = var := by
        simp [select_unassigned_variable, hsel]
      rw [hsel2] at h
      cases hdom : lookupL s.domains var with
      | none => simp [hdom] at h
      | some dom =>
        rw [hdom] at h
        refine ⟨var, dom, rfl, hdom, ?_⟩
        intro x hx
        rcases tryValues_fail_each hnd hvar.2 dom a a' ha hk hvar.1 h x hx with h1 | h1
        · exact Or.inl h1
        · refine Or.inr ⟨h1.1, ?_⟩
          have ha1 : NodupKeys (insertA a var x) := NodupKeys_insertA x ha hvar.1
          have hk1 : KeysIn s (insertA a var x) := KeysIn_insertA x hk hvar.2
          have hlt : unassignedCount s (insertA a var x) < unassignedCount s a :=
            unassignedCount_insertA_lt x hvar.1 hvar.2
          rw [CSPSolver.solve, join_eq_some_iff]
          rw [solveF_irrel hnd ha1 hk1 hlt] at h1
          exact h1.2

/-- Witness for C4 at the unsatisfiable two-variable instance started from
the empty assignment. -/
theorem extend_success_iff_size_witness :
    (∀ a', wCSP2.solve [] = some (a', true) → a'.length = wCSP2.vars.length) ∧
    (([] : Assignment).length = wCSP2.vars.length → wCSP2.solve [] = some ([], true)) ∧
    (∀ a', wCSP2.solve [] = some (a', false) →
      ([] : Assignment).length ≠ wCSP2.vars.length ∧
      ∃ var dom, wCSP2.vars.find? (fun v => (lookupL ([] : Assignment) v).isNone) = some var ∧
        lookupL wCSP2.domains var = some dom ∧
        ∀ x ∈ dom, is_consistent wCSP2.constraints (insertA [] var x) = some false ∨
          (is_consistent wCSP2.constraints (insertA [] var x) = some true ∧
            wCSP2.solve (insertA [] var x) = some (insertA [] var x, false))) := by
  apply extend_success_iff_size wCSP2 []
  · decide
  · unfold NodupKeys
    decide
  · intro p hp
    simp at hp

/-- C3 (code bug).  The example program of `csp.hpp` never reaches a
solution: its constraint closures index the assignment with `.at` while the
engine evaluates them on partial assignments, so the very first consistency
check (assignment `{A := 1}`) throws `std::out_of_range` — modelled here as
`none` — both for the registered constraints A≠B, B≠C, A≠C and for the
Scenario C variant with A=B; the spec expects success with a permutation of
{1,2,3} and failure-without-mutation respectively. -/
theorem example_program_throws :
    exCSP.solve [] = none ∧ exCSPeq.solve [] = none := by
  constructor <;> decide

/-- C8 (spec-modelled Deduction Propagator).  No variable is classified both
forced-safe and forced-mine for the same instance: the two engine runs are
deterministic, so the outcomes are mutually exclusive. -/
theorem forced_classification_exclusive (s : CSPSolver) (x : Variable)
    (h : forcedSafe s x) : ¬ forcedMine s x := by
  intro h2
  exact Bool.noConfusion (h.1.symm.trans h2.2)

/-- Witness for C8: on the concrete frontier instance, x is forced-safe and
therefore not forced-mine. -/
theorem forced_classification_exclusive_witness :
    forcedSafe wCSP8 "x" ∧ ¬ forcedMine wCSP8 "x" := by
  have hfs : forcedSafe wCSP8 "x" := ⟨by decide, by decide⟩
  exact ⟨hfs, forced_classification_exclusive wCSP8 "x" hfs⟩

/-! ## Lemmas: board indexing -/

theorem modifyIdx_length {α : Type} (f : α → α) :
    ∀ (l : List α) (n : Nat), (modifyIdx f l n).length = l.length := by
  intro l
  induction l with
  | nil => intro n; simp [modifyIdx]
  | cons x xs ih =>
    intro n
    cases n with
    | zero => simp [modifyIdx]
    | succ n => simp [modifyIdx, ih n]

theorem getD_modifyIdx {α : Type} (f : α → α) :
    ∀ (l : List α) (n m : Nat) (d : α),
      (modifyIdx f l n).getD m d =
        if n = m ∧ n < l.length then f (l.getD m d) else l.getD m d := by
  intro l
  induction l with
  | nil => intro n m d; simp [modifyIdx]
  | cons x xs ih =>
    intro n m d
    cases n with
    | zero =>
      cases m with
      | zero => simp [modifyIdx]
      | succ m => simp [modifyIdx]
    | succ n =>
      cases m with
      | zero => simp [modifyIdx]
      | succ m =>
        simp only [modifyIdx, List.getD_cons_succ, List.length_cons]
        rw [ih n m d]
        by_cases h : n = m ∧ n < xs.length
        · rw [if_pos h, if_pos (by omega)]
        · rw [if_neg h, if_neg (by omega)]

theorem getD_map_len : ∀ (l : Board) (n : Nat),
    (l.map (fun r => r.length)).getD n 0 = (l.getD n []).length := by
  intro l
  induction l with
  | nil => intro n; simp
  | cons x xs ih =>
    intro n
    cases n with
    | zero => simp
    | succ n =>
      rw [List.map_cons, List.getD_cons_succ, List.getD_cons_succ]
      exact ih n

theorem getD_mem {α : Type} : ∀ {l : List α} {n : Nat} {d : α}, n < l.length →
    l.getD n d ∈ l := by
  intro l
  induction l with
  | nil => intro n d h; simp at h
  | cons x xs ih =>
    intro n d h
    cases n with
    | zero => simp
    | succ n =>
      simp only [List.getD_cons_succ]
      exact List.mem_cons_of_mem _ (ih (by simpa using h))

theorem length_setCellN (b : Board) (i j : Nat) (f : Cell → Cell) :
    (setCellN b i j f).length = b.length := modifyIdx_length _ b i

theorem map_len_setCellN (b : Board) (i j : Nat) (f : Cell → Cell) :
    (setCellN b i j f).map (fun r => r.length) = b.map (fun r => r.length) := by
  unfold setCellN
  induction b generalizing i with
  | nil => simp [modifyIdx]
  | cons x xs ih =>
    cases i with
    | zero => simp [modifyIdx, modifyIdx_length]
    | succ i => simp [modifyIdx, ih i]

theorem rowLens_length {b b' : Board}
    (h : b'.map (fun r => r.length) = b.map (fun r => r.length)) :
    b'.length = b.length := by
  have := congrArg List.length h
  simpa using this

theorem rowLens_getD {b b' : Board}
    (h : b'.map (fun r => r.length) = b.map (fun r => r.length)) (i : Nat) :
    (b'.getD i []).length = (b.getD i []).length := by
  rw [← getD_map_len, ← getD_map_len, h]

theorem rowLen0_congr {b b' : Board}
    (h : b'.map (fun r => r.length) = b.map (fun r => r.length)) :
    rowLen0 b' = rowLen0 b := rowLens_getD h 0

theorem inB_congr {b b' : Board}
    (h : b'.map (fun r => r.length) = b.map (fun r => r.length))
    (row col : Int) : inB b' row col = inB b row col := by
  unfold inB
  rw [rowLens_length h, rowLen0_congr h]

theorem cellN_setCellN_self {b : Board} {i j : Nat} (f : Cell → Cell)
    (hi : i < b.length) (hj : j < (b.getD i []).length) :
    cellN (setCellN b i j f) i j = f (cellN b i j) := by
  unfold cellN setCellN
  rw [getD_modifyIdx]
  rw [if_pos ⟨rfl, hi⟩]
  rw [getD_modifyIdx]
  rw [if_pos ⟨rfl, hj⟩]

theorem cellN_setCellN_ne {b : Board} {i j : Nat} (f : Cell → Cell) {im jm : Nat}
    (h : ¬(i = im ∧ j = jm)) :
    cellN (setCellN b i j f) im jm = cellN b im jm := by
  unfold cellN setCellN
  rw [getD_modifyIdx]
  by_cases hi : i = im ∧ i < b.length
  · rw [if_pos hi, getD_modifyIdx]
    have hj : j ≠ jm := fun hj => h ⟨hi.1, hj⟩
    rw [if_neg (fun hc => hj hc.1)]
  · rw [if_neg hi]

theorem cellN_oob {b : Board} {i j : Nat}
    (h : ¬(i < b.length ∧ j < (b.getD i []).length)) : cellN b i j = defaultCell := by
  unfold cellN
  by_cases hi : i < b.length
  · have hj : (b.getD i []).length ≤ j := by
      rcases Nat.lt_or_ge j (b.getD i []).length with h1 | h1
      · exact absurd ⟨hi, h1⟩ h
      · exact h1
    exact List.getD_eq_default _ _ hj
  · have : b.length ≤ i := Nat.le_of_not_lt hi
    rw [List.getD_eq_default _ _ this]
    simp [List.getD]

theorem cellN_mem {b : Board} {i j : Nat}
    (hi : i < b.length) (hj : j < (b.getD i []).length) :
    b.getD i [] ∈ b ∧ cellN b i j ∈ b.getD i [] :=
  ⟨getD_mem hi, getD_mem hj⟩

/-! ## Lemmas: static board structure -/

theorem staticEq_refl (b : Board) : StaticEq b b := ⟨rfl, fun _ _ => ⟨rfl, rfl, rfl⟩⟩

theorem staticEq_trans {b b1 b2 : Board} (h1 : StaticEq b b1) (h2 : StaticEq b1 b2) :
    StaticEq b b2 := by
  refine ⟨h2.1.trans h1.1, fun i j => ?_⟩
  rcases h1.2 i j with ⟨a1, a2, a3⟩
  rcases h2.2 i j with ⟨c1, c2, c3⟩
  exact ⟨c1.trans a1, c2.trans a2, c3.trans a3⟩

theorem revealMono_refl (b : Board) : RevealMono b b := fun _ _ h => h

theorem revealMono_trans {b b1 b2 : Board} (h1 : RevealMono b b1) (h2 : RevealMono b1 b2) :
    RevealMono b b2 := fun i j h => h2 i j (h1 i j h)

theorem staticOK_congr {b b' : Board} (hs : StaticOK b) (he : StaticEq b b') :
    StaticOK b' := by
  refine ⟨?_, ?_, ?_⟩
  · intro i hi
    rw [rowLens_length he.1] at hi
    rw [rowLens_getD he.1, rowLen0_congr he.1]
    exact hs.1 i hi
  · intro i j
    rw [(he.2 i j).2.1]
    exact hs.2.1 i j
  · intro i j h0
    rw [(he.2 i j).2.2] at h0
    rw [(he.2 i j).1]
    exact hs.2.2 i j h0

theorem rectN_of_rect {b : Board} (h : Rect b) : RectN b := by
  intro i hi
  exact h _ (getD_mem hi)

theorem noFlagsN_of_noFlags {b : Board} (h : NoFlags b) : NoFlagsN b := by
  intro i j
  by_cases hin : i < b.length ∧ j < (b.getD i []).length
  · exact h _ (getD_mem hin.1) _ (getD_mem hin.2)
  · rw [cellN_oob hin]
    rfl

theorem zeroNonMineN_of_zeroNonMine {b : Board} (h : ZeroNonMine b) : ZeroNonMineN b := by
  intro i j h0
  by_cases hin : i < b.length ∧ j < (b.getD i []).length
  · exact h _ (getD_mem hin.1) _ (getD_mem hin.2) h0
  · rw [cellN_oob hin]
    rfl

theorem noRevealedN_of_noRevealed {b : Board} (h : NoRevealed b) : NoRevealedN b := by
  intro i j
  by_cases hin : i < b.length ∧ j < (b.getD i []).length
  · exact h _ (getD_mem hin.1) _ (getD_mem hin.2)
  · rw [cellN_oob hin]
    rfl

theorem inB_dest {b : Board} {row col : Int} (h : inB b row col = true) :
    0 ≤ row ∧ 0 ≤ col ∧ row.toNat < b.length ∧ col.toNat < rowLen0 b := by
  unfold inB at h
  simp only [Bool.and_eq_true, decide_eq_true_eq] at h
  obtain ⟨⟨⟨h1, h2⟩, h3⟩, h4⟩ := h
  refine ⟨h1, h3, ?_, ?_⟩ <;> omega

theorem staticEq_setCellN {b : Board} {i j : Nat} {f : Cell → Cell}
    (hf : ∀ c, (f c).is_mine = c.is_mine ∧ (f c).is_flagged = c.is_flagged ∧
      (f c).adjacent_mines = c.adjacent_mines) :
    StaticEq b (setCellN b i j f) := by
  refine ⟨map_len_setCellN b i j f, fun im jm => ?_⟩
  by_cases hij : i = im ∧ j = jm
  · obtain ⟨rfl, rfl⟩ := hij
    by_cases hin : i < b.length ∧ j < (b.getD i []).length
    · rw [cellN_setCellN_self f hin.1 hin.2]
      exact hf _
    · have hsh := map_len_setCellN b i j f
      have hoob2 : ¬(i < (setCellN b i j f).length ∧
          j < ((setCellN b i j f).getD i []).length) := by
        rw [rowLens_length hsh, rowLens_getD hsh]
        exact hin
      rw [cellN_oob hoob2, cellN_oob hin]
      exact ⟨rfl, rfl, rfl⟩
  · rw [cellN_setCellN_ne f hij]
    exact ⟨rfl, rfl, rfl⟩

theorem revealMono_setCellN {b : Board} {i j : Nat} {f : Cell → Cell}
    (hf : ∀ c, c.is_revealed = true → (f c).is_revealed = true) :
    RevealMono b (setCellN b i j f) := by
  intro im jm h
  by_cases hij : i = im ∧ j = jm
  · obtain ⟨rfl, rfl⟩ := hij
    by_cases hin : i < b.length ∧ j < (b.getD i []).length
    · rw [cellN_setCellN_self f hin.1 hin.2]
      exact hf _ h
    · rw [cellN_oob hin] at h
      simp [defaultCell] at h
  · rw [cellN_setCellN_ne f hij]
    exact h

/-! ## Lemmas: unrevealed-cell counting -/

theorem rowUnrev_modify_le {f : Cell → Cell} (hf : ∀ c, (f c).is_revealed = true) :
    ∀ (row : List Cell) (j : Nat), rowUnrev (modifyIdx f row j) ≤ rowUnrev row := by
  intro row
  induction row with
  | nil => intro j; simp [modifyIdx]
  | cons c rest ih =>
    intro j
    cases j with
    | zero =>
      simp only [modifyIdx, rowUnrev, List.filter_cons, hf c, Bool.not_true]
      by_cases hc : c.is_revealed <;> simp [hc]
    | succ j =>
      have := ih j
      simp only [modifyIdx, rowUnrev, List.filter_cons] at this ⊢
      by_cases hc : c.is_revealed <;> simp [hc] <;> omega

theorem rowUnrev_modify_lt {f : Cell → Cell} (hf : ∀ c, (f c).is_revealed = true) :
    ∀ (row : List Cell) (j : Nat), j < row.length →
      (row.getD j defaultCell).is_revealed = false →
      rowUnrev (modifyIdx f row j) < rowUnrev row := by
  intro row
  induction row with
  | nil => intro j h; simp at h
  | cons c rest ih =>
    intro j hj hrev
    cases j with
    | zero =>
      simp only [List.getD_cons_zero] at hrev
      simp only [modifyIdx, rowUnrev, List.filter_cons, hf c, Bool.not_true, hrev]
      simp
    | succ j =>
      simp only [List.getD_cons_succ] at hrev
      have hlt := ih j (by simpa using hj) hrev
      simp only [modifyIdx, rowUnrev, List.filter_cons] at hlt ⊢
      by_cases hc : c.is_revealed <;> simp [hc] <;> omega

theorem unrevealedCount_eq_sum (b : Board) :
    unrevealedCount b = (b.map rowUnrev).sum := rfl

theorem unrevealedCount_setCellN_le {f : Cell → Cell}
    (hf : ∀ c, (f c).is_revealed = true) (b : Board) (i j : Nat) :
    unrevealedCount (setCellN b i j f) ≤ unrevealedCount b := by
  rw [unrevealedCount_eq_sum, unrevealedCount_eq_sum]
  unfold setCellN
  induction b generalizing i with
  | nil => simp [modifyIdx]
  | cons r rs ih =>
    cases i with
    | zero =>
      simp only [modifyIdx, List.map_cons, List.sum_cons]
      exact Nat.add_le_add_right (rowUnrev_modify_le hf r j) _
    | succ i =>
      simp only [modifyIdx, List.map_cons, List.sum_cons]
      exact Nat.add_le_add_left (ih i) _

theorem unrevealedCount_setCellN_lt {f : Cell → Cell}
    (hf : ∀ c, (f c).is_revealed = true) {b : Board} {i j : Nat}
    (hi : i < b.length) (hj : j < (b.getD i []).length)
    (hc : (cellN b i j).is_revealed = false) :
    unrevealedCount (setCellN b i j f) < unrevealedCount b := by
  rw [unrevealedCount_eq_sum, unrevealedCount_eq_sum]
  unfold setCellN
  unfold cellN at hc
  induction b generalizing i with
  | nil => simp at hi
  | cons r rs ih =>
    cases i with
    | zero =>
      simp only [modifyIdx, List.map_cons, List.sum_cons]
      have := rowUnrev_modify_lt hf r j (by simpa using hj) (by simpa using hc)
      exact Nat.add_lt_add_right this _
    | succ i =>
      simp only [modifyIdx, List.map_cons, List.sum_cons]
      have := ih (by simpa using hi) (by simpa using hj) (by simpa using hc)
      exact Nat.add_lt_add_left this _

/-! ## Lemmas: structural effects of reveal_cell -/

theorem rectN_congr {b b' : Board}
    (h : b'.map (fun r => r.length) = b.map (fun r => r.length))
    (hr : RectN b) : RectN b' := by
  intro i hi
  rw [rowLens_length h] at hi
  rw [rowLens_getD h, rowLen0_congr h]
  exact hr i hi

theorem newRev_refl (b : Board) : NewRevealedUnflagged b b := fun _ _ h => Or.inl h

theorem newRev_trans {b b1 b2 : Board} (hs : StaticEq b b1)
    (h1 : NewRevealedUnflagged b b1) (h2 : NewRevealedUnflagged b1 b2) :
    NewRevealedUnflagged b b2 := by
  intro i j hrev
  rcases h2 i j hrev with hr1 | hf1
  · exact h1 i j hr1
  · rw [(hs.2 i j).2.1] at hf1
    exact Or.inr hf1

theorem chordLoop_props {f : Board → Int → Int → Option (Board × Bool)}
    (hf : ∀ b r c b' res, f b r c = some (b', res) →
      StaticEq b b' ∧ RevealMono b b' ∧ unrevealedCount b' ≤ unrevealedCount b ∧
        NewRevealedUnflagged b b') :
    ∀ (l : List (Int × Int)) (row col : Int) (b b2 : Board),
      chordLoop f row col l b = some b2 →
      StaticEq b b2 ∧ RevealMono b b2 ∧ unrevealedCount b2 ≤ unrevealedCount b ∧
        NewRevealedUnflagged b b2 := by
  intro l
  induction l with
  | nil =>
    intro row col b b2 h
    simp [chordLoop] at h
    subst h
    exact ⟨staticEq_refl b, revealMono_refl b, le_refl _, newRev_refl b⟩
  | cons ij rest ih =>
    intro row col b b2 h
    simp only [chordLoop] at h
    by_cases hg : inB b (row + ij.1) (col + ij.2) &&
        !(cellAt b (row + ij.1) (col + ij.2)).is_flagged
    · rw [if_pos hg] at h
      cases hcall : f b (row + ij.1) (col + ij.2) with
      | none => rw [hcall] at h; exact absurd h (by simp)
      | some p =>
        obtain ⟨b1, res⟩ := p
        rw [hcall] at h
        have hp1 := hf b _ _ b1 res hcall
        have hp2 := ih row col b1 b2 h
        exact ⟨staticEq_trans hp1.1 hp2.1, revealMono_trans hp1.2.1 hp2.2.1,
          hp2.2.2.1.trans hp1.2.2.1, newRev_trans hp1.1 hp1.2.2.2 hp2.2.2.2⟩
    · rw [if_neg hg] at h
      exact ih row col b b2 h

theorem zeroLoop_props {f : Board → Int → Int → Option (Board × Bool)}
    (hf : ∀ b r c b' res, f b r c = some (b', res) →
      StaticEq b b' ∧ RevealMono b b' ∧ unrevealedCount b' ≤ unrevealedCount b ∧
        NewRevealedUnflagged b b') :
    ∀ (l : List (Int × Int)) (row col : Int) (b b2 : Board),
      zeroLoop f row col l b = some b2 →
      StaticEq b b2 ∧ RevealMono b b2 ∧ unrevealedCount b2 ≤ unrevealedCount b ∧
        NewRevealedUnflagged b b2 := by
  intro l
  induction l with
  | nil =>
    intro row col b b2 h
    simp [zeroLoop] at h
    subst h
    exact ⟨staticEq_refl b, revealMono_refl b, le_refl _, newRev_refl b⟩
  | cons ij rest ih =>
    intro row col b b2 h
    simp only [zeroLoop] at h
    cases hcall : f b (row + ij.1) (col + ij.2) with
    | none => rw [hcall] at h; exact absurd h (by simp)
    | some p =>
      obtain ⟨b1, res⟩ := p
      rw [hcall] at h
      have hp1 := hf b _ _ b1 res hcall
      have hp2 := ih row col b1 b2 h
      exact ⟨staticEq_trans hp1.1 hp2.1, revealMono_trans hp1.2.1 hp2.2.1,
        hp2.2.2.1.trans hp1.2.2.1, newRev_trans hp1.1 hp1.2.2.2 hp2.2.2.2⟩

theorem revealF_guard_components {b : Board} {row col : Int}
    (hgB : (!(inB b row col) || (cellAt b row col).is_revealed ||
      (cellAt b row col).is_flagged) = false) :
    inB b row col = true ∧ (cellAt b row col).is_revealed = false ∧
      (cellAt b row col).is_flagged = false := by
  refine ⟨?_, ?_, ?_⟩
  · cases hx : inB b row col
    · simp [hx] at hgB
    · rfl
  · cases hx : (cellAt b row col).is_revealed
    · rfl
    · simp [hx] at hgB
  · cases hx : (cellAt b row col).is_flagged
    · rfl
    · simp [hx] at hgB

theorem setRevealed_props {b : Board} {row col : Int}
    (hin : inB b row col = true)
    (hflag : (cellAt b row col).is_flagged = false) :
    StaticEq b (setCell b row col (fun c => { c with is_revealed := true })) ∧
      RevealMono b (setCell b row col (fun c => { c with is_revealed := true })) ∧
      unrevealedCount (setCell b row col (fun c => { c with is_revealed := true })) ≤
        unrevealedCount b ∧
      NewRevealedUnflagged b (setCell b row col (fun c => { c with is_revealed := true })) := by
  refine ⟨staticEq_setCellN (fun c => ⟨rfl, rfl, rfl⟩),
    revealMono_setCellN (fun c h => rfl),
    unrevealedCount_setCellN_le (fun c => rfl) b _ _, ?_⟩
  intro i j hrev
  by_cases hij : row.toNat = i ∧ col.toNat = j
  · obtain ⟨rfl, rfl⟩ := hij
    exact Or.inr hflag
  · rw [setCell, cellN_setCellN_ne _ hij] at hrev
    exact Or.inl hrev

theorem revealF_props :
    ∀ (fuel : Nat) (b : Board) (row col : Int) (b' : Board) (res : Bool),
      revealF fuel b row col = some (b', res) →
      StaticEq b b' ∧ RevealMono b b' ∧ unrevealedCount b' ≤ unrevealedCount b ∧
        NewRevealedUnflagged b b' := by
  intro fuel
  induction fuel with
  | zero => intro b row col b' res h; simp [revealF] at h
  | succ fuel ih =>
    intro b row col b' res h
    simp only [revealF] at h
    cases hgB : (!(inB b row col) || (cellAt b row col).is_revealed ||
        (cellAt b row col).is_flagged) with
    | true =>
      rw [if_pos hgB] at h
      simp at h
      rw [← h.1]
      exact ⟨staticEq_refl b, revealMono_refl b, le_refl _, newRev_refl b⟩
    | false =>
      rw [if_neg (by simp [hgB])] at h
      obtain ⟨hin, hrev, hflag⟩ := revealF_guard_components hgB
      have hp1 := setRevealed_props hin hflag
      set b1 := setCell b row col (fun c => { c with is_revealed := true }) with hb1
      by_cases hmine : (cellAt b1 row col).is_mine = true
      · rw [if_pos hmine] at h
        simp at h
        rw [← h.1]
        exact hp1
      · rw [if_neg hmine] at h
        cases hch : (if (countFlagged b1 row col : Int) = (cellAt b1 row col).adjacent_mines
            then chordLoop (revealF fuel) row col offsetsList b1 else some b1) with
        | none => simp [hch] at h
        | some b2 =>
          simp only [hch] at h
          have hp2 : StaticEq b1 b2 ∧ RevealMono b1 b2 ∧
              unrevealedCount b2 ≤ unrevealedCount b1 ∧ NewRevealedUnflagged b1 b2 := by
            by_cases hcc : (countFlagged b1 row col : Int) = (cellAt b1 row col).adjacent_mines
            · rw [if_pos hcc] at hch
              exact chordLoop_props (fun bb r c bb' rr hcall => ih bb r c bb' rr hcall)
                offsetsList row col b1 b2 hch
            · rw [if_neg hcc] at hch
              cases hch
              exact ⟨staticEq_refl b1, revealMono_refl b1, le_refl _, newRev_refl b1⟩
          by_cases hz : (cellAt b2 row col).adjacent_mines = 0
          · rw [if_pos hz] at h
            cases hzl : zeroLoop (revealF fuel) row col offsetsList b2 with
            | none => simp [hzl] at h
            | some b3 =>
              simp only [hzl] at h
              simp at h
              have hp3 := zeroLoop_props (fun bb r c bb' rr hcall => ih bb r c bb' rr hcall)
                offsetsList row col b2 b3 hzl
              rw [← h.1]
              refine ⟨staticEq_trans (staticEq_trans hp1.1 hp2.1) hp3.1,
                revealMono_trans (revealMono_trans hp1.2.1 hp2.2.1) hp3.2.1,
                (hp3.2.2.1.trans hp2.2.2.1).trans hp1.2.2.1,
                newRev_trans (staticEq_trans hp1.1 hp2.1)
                  (newRev_trans hp1.1 hp1.2.2.2 hp2.2.2.2) hp3.2.2.2⟩
          · rw [if_neg hz] at h
            simp at h
            rw [← h.1]
            exact ⟨staticEq_trans hp1.1 hp2.1,
              revealMono_trans hp1.2.1 hp2.2.1,
              hp2.2.2.1.trans hp1.2.2.1,
              newRev_trans hp1.1 hp1.2.2.2 hp2.2.2.2⟩

theorem chordLoop_noExhaust {f : Board → Int → Int → Option (Board × Bool)} {fuel : Nat}
    (hf_ne : ∀ b r c, RectN b → unrevealedCount b < fuel → f b r c ≠ none)
    (hf_props : ∀ b r c b' res, f b r c = some (b', res) →
      StaticEq b b' ∧ RevealMono b b' ∧ unrevealedCount b' ≤ unrevealedCount b ∧
        NewRevealedUnflagged b b') :
    ∀ (l : List (Int × Int)) (row col : Int) (b : Board), RectN b →
      unrevealedCount b < fuel → chordLoop f row col l b ≠ none := by
  intro l
  induction l with
  | nil => intro row col b _ _; simp [chordLoop]
  | cons ij rest ih =>
    intro row col b hrect hcount
    simp only [chordLoop]
    by_cases hg : inB b (row + ij.1) (col + ij.2) &&
        !(cellAt b (row + ij.1) (col + ij.2)).is_flagged
    · rw [if_pos hg]
      cases hcall : f b (row + ij.1) (col + ij.2) with
      | none => exact absurd hcall (hf_ne b _ _ hrect hcount)
      | some p =>
        obtain ⟨b1, res⟩ := p
        have hp := hf_props b _ _ b1 res hcall
        exact ih row col b1 (rectN_congr hp.1.1 hrect)
          (Nat.lt_of_le_of_lt hp.2.2.1 hcount)
    · rw [if_neg hg]
      exact ih row col b hrect hcount

theorem zeroLoop_noExhaust {f : Board → Int → Int → Option (Board × Bool)} {fuel : Nat}
    (hf_ne : ∀ b r c, RectN b → unrevealedCount b < fuel → f b r c ≠ none)
    (hf_props : ∀ b r c b' res, f b r c = some (b', res) →
      StaticEq b b' ∧ RevealMono b b' ∧ unrevealedCount b' ≤ unrevealedCount b ∧
        NewRevealedUnflagged b b') :
    ∀ (l : List (Int × Int)) (row col : Int) (b : Board), RectN b →
      unrevealedCount b < fuel → zeroLoop f row col l b ≠ none := by
  intro l
  induction l with
  | nil => intro row col b _ _; simp [zeroLoop]
  | cons ij rest ih =>
    intro row col b hrect hcount
    simp only [zeroLoop]
    cases hcall : f b (row + ij.1) (col + ij.2) with
    | none => exact absurd hcall (hf_ne b _ _ hrect hcount)
    | some p =>
      obtain ⟨b1, res⟩ := p
      have hp := hf_props b _ _ b1 res hcall
      exact ih row col b1 (rectN_congr hp.1.1 hrect)
        (Nat.lt_of_le_of_lt hp.2.2.1 hcount)

theorem revealF_noExhaust :
    ∀ (fuel : Nat) (b : Board) (row col : Int), RectN b →
      unrevealedCount b < fuel → revealF fuel b row col ≠ none := by
  intro fuel
  induction fuel with
  | zero =>
    intro b row col _ hcount
    exact absurd hcount (Nat.not_lt_zero _)
  | succ fuel ih =>
    intro b row col hrect hcount
    simp only [revealF]
    cases hgB : (!(inB b row col) || (cellAt b row col).is_revealed ||
        (cellAt b row col).is_flagged) with
    | true => simp
    | false =>
      rw [if_neg (by simp)]
      obtain ⟨hin, hrev, hflag⟩ := revealF_guard_components hgB
      obtain ⟨hr0, hc0, hrn, hcn⟩ := inB_dest hin
      have hj : col.toNat < (b.getD row.toNat []).length := by
        rw [hrect _ hrn]
        exact hcn
      have hlt : unrevealedCount (setCell b row col
          (fun c => { c with is_revealed := true })) < unrevealedCount b :=
        unrevealedCount_setCellN_lt (fun c => rfl) hrn hj hrev
      set b1 := setCell b row col (fun c => { c with is_revealed := true }) with hb1
      have hfuel1 : unrevealedCount b1 < fuel := by omega
      have hrect1 : RectN b1 := rectN_congr (map_len_setCellN b _ _ _) hrect
      by_cases hmine : (cellAt b1 row col).is_mine = true
      · rw [if_pos hmine]
        exact Option.some_ne_none _
      · rw [if_neg hmine]
        cases hch : (if (countFlagged b1 row col : Int) = (cellAt b1 row col).adjacent_mines
            then chordLoop (revealF fuel) row col offsetsList b1 else some b1) with
        | none =>
          by_cases hcc : (countFlagged b1 row col : Int) = (cellAt b1 row col).adjacent_mines
          · rw [if_pos hcc] at hch
            exact absurd hch (chordLoop_noExhaust (fun bb r c hbb hcb => ih bb r c hbb hcb)
              (fun bb r c bb' rr hcall => revealF_props fuel bb r c bb' rr hcall)
              offsetsList row col b1 hrect1 hfuel1)
          · rw [if_neg hcc] at hch
            simp at hch
        | some b2 =>
          have hp2 : unrevealedCount b2 ≤ unrevealedCount b1 ∧ RectN b2 := by
            by_cases hcc : (countFlagged b1 row col : Int) = (cellAt b1 row col).adjacent_mines
            · rw [if_pos hcc] at hch
              have := chordLoop_props
                (fun bb r c bb' rr hcall => revealF_props fuel bb r c bb' rr hcall)
                offsetsList row col b1 b2 hch
              exact ⟨this.2.2.1, rectN_congr this.1.1 hrect1⟩
            · rw [if_neg hcc] at hch
              cases hch
              exact ⟨le_refl _, hrect1⟩
          show (if (cellAt b2 row col).adjacent_mines = 0 then
              (match zeroLoop (revealF fuel) row col offsetsList b2 with
                | none => none
                | some b3 => some (b3, true))
              else some (b2, true)) ≠ none
          by_cases hz : (cellAt b2 row col).adjacent_mines = 0
          · rw [if_pos hz]
            cases hzl : zeroLoop (revealF fuel) row col offsetsList b2 with
            | none =>
              exact absurd hzl (zeroLoop_noExhaust (fun bb r c hbb hcb => ih bb r c hbb hcb)
                (fun bb r c bb' rr hcall => revealF_props fuel bb r c bb' rr hcall)
                offsetsList row col b2 hp2.2 (Nat.lt_of_le_of_lt hp2.1 hfuel1))
            | some b3 => exact Option.some_ne_none _
          · rw [if_neg hz]
            exact Option.some_ne_none _

/-! ## Lemmas: the zero-cascade closure -/

theorem freshClosed_refl (b : Board) : FreshClosed b b := by
  intro row col _ hrev hnrev _ _ _ _
  exact absurd hrev (by simp [revealedAt, hnrev])

theorem freshClosed_trans {b b1 b2 : Board} (hs1 : StaticEq b b1)
    (f1 : FreshClosed b b1) (f2 : FreshClosed b1 b2) (m2 : RevealMono b1 b2) :
    FreshClosed b b2 := by
  intro row col hin hrev2 hnrev hzero ij hij hinq
  cases hrev1 : (cellAt b1 row col).is_revealed with
  | true =>
    exact m2 _ _ (f1 row col hin hrev1 hnrev hzero ij hij hinq)
  | false =>
    have hin1 : inB b1 row col = true := by rw [inB_congr hs1.1]; exact hin
    have hnrev1 : (cellAt b1 row col).is_revealed = false := hrev1
    have hzero1 : (cellAt b1 row col).adjacent_mines = 0 := by
      show (cellN b1 row.toNat col.toNat).adjacent_mines = 0
      rw [(hs1.2 row.toNat col.toNat).2.2]
      exact hzero
    have hinq1 : inB b1 (row + ij.1) (col + ij.2) = true := by
      rw [inB_congr hs1.1]
      exact hinq
    exact f2 row col hin1 hrev2 hnrev1 hzero1 ij hij hinq1

theorem countFlagged_zero {b : Board} (hnf : NoFlagsN b) (row col : Int) :
    countFlagged b row col = 0 := by
  unfold countFlagged
  have hnone : ∀ ij ∈ offsetsList, ¬((inB b (row + ij.1) (col + ij.2) &&
      (cellAt b (row + ij.1) (col + ij.2)).is_flagged) = true) := by
    intro ij _ hcontra
    rw [Bool.and_eq_true] at hcontra
    have hflag : (cellAt b (row + ij.1) (col + ij.2)).is_flagged = false := hnf _ _
    rw [hflag] at hcontra
    exact Bool.noConfusion hcontra.2
  simp only [List.length_eq_zero]
  exact List.filter_eq_nil_iff.mpr hnone

theorem zeroLoop_cascade {f : Board → Int → Int → Option (Board × Bool)}
    (hprops : ∀ b r c b' res, f b r c = some (b', res) →
      StaticEq b b' ∧ RevealMono b b' ∧ unrevealedCount b' ≤ unrevealedCount b ∧
        NewRevealedUnflagged b b')
    (hcasc : ∀ b r c b' res, StaticOK b → f b r c = some (b', res) →
      FreshClosed b b' ∧ (inB b r c = true → revealedAt b' r c)) :
    ∀ (l : List (Int × Int)) (row col : Int) (b b2 : Board), StaticOK b →
      zeroLoop f row col l b = some b2 →
      FreshClosed b b2 ∧ RevealMono b b2 ∧ StaticEq b b2 ∧
        ∀ ij ∈ l, inB b (row + ij.1) (col + ij.2) = true →
          revealedAt b2 (row + ij.1) (col + ij.2) := by
  intro l
  induction l with
  | nil =>
    intro row col b b2 _ h
    simp [zeroLoop] at h
    subst h
    exact ⟨freshClosed_refl b, revealMono_refl b, staticEq_refl b, by simp⟩
  | cons ij rest ih =>
    intro row col b b2 hok h
    simp only [zeroLoop] at h
    cases hcall : f b (row + ij.1) (col + ij.2) with
    | none => simp [hcall] at h
    | some p =>
      obtain ⟨bm, res⟩ := p
      rw [hcall] at h
      have hp := hprops b _ _ bm res hcall
      have hc := hcasc b _ _ bm res hok hcall
      have hokm : StaticOK bm := staticOK_congr hok hp.1
      have hi := ih row col bm b2 hokm h
      refine ⟨freshClosed_trans hp.1 hc.1 hi.1 hi.2.1,
        revealMono_trans hp.2.1 hi.2.1, staticEq_trans hp.1 hi.2.2.1, ?_⟩
      intro ij' hij' hinq
      rcases List.mem_cons.mp hij' with h1 | h1
      · subst h1
        exact hi.2.1 _ _ (hc.2 hinq)
      · refine hi.2.2.2 ij' h1 ?_
        rw [inB_congr hp.1.1]
        exact hinq

theorem chordLoop_cascade {f : Board → Int → Int → Option (Board × Bool)}
    (hprops : ∀ b r c b' res, f b r c = some (b', res) →
      StaticEq b b' ∧ RevealMono b b' ∧ unrevealedCount b' ≤ unrevealedCount b ∧
        NewRevealedUnflagged b b')
    (hcasc : ∀ b r c b' res, StaticOK b → f b r c = some (b', res) →
      FreshClosed b b' ∧ (inB b r c = true → revealedAt b' r c)) :
    ∀ (l : List (Int × Int)) (row col : Int) (b b2 : Board), StaticOK b →
      chordLoop f row col l b = some b2 →
      FreshClosed b b2 ∧ RevealMono b b2 ∧ StaticEq b b2 ∧
        ∀ ij ∈ l, inB b (row + ij.1) (col + ij.2) = true →
          revealedAt b2 (row + ij.1) (col + ij.2) := by
  intro l
  induction l with
  | nil =>
    intro row col b b2 _ h
    simp [chordLoop] at h
    subst h
    exact ⟨freshClosed_refl b, revealMono_refl b, staticEq_refl b, by simp⟩
  | cons ij rest ih =>
    intro row col b b2 hok h
    simp only [chordLoop] at h
    by_cases hg : inB b (row + ij.1) (col + ij.2) &&
        !(cellAt b (row + ij.1) (col + ij.2)).is_flagged
    · rw [if_pos hg] at h
      cases hcall : f b (row + ij.1) (col + ij.2) with
      | none => simp [hcall] at h
      | some p =>
        obtain ⟨bm, res⟩ := p
        rw [hcall] at h
        have hp := hprops b _ _ bm res hcall
        have hc := hcasc b _ _ bm res hok hcall
        have hokm : StaticOK bm := staticOK_congr hok hp.1
        have hi := ih row col bm b2 hokm h
        refine ⟨freshClosed_trans hp.1 hc.1 hi.1 hi.2.1,
          revealMono_trans hp.2.1 hi.2.1, staticEq_trans hp.1 hi.2.2.1, ?_⟩
        intro ij' hij' hinq
        rcases List.mem_cons.mp hij' with h1 | h1
        · subst h1
          exact hi.2.1 _ _ (hc.2 hinq)
        · refine hi.2.2.2 ij' h1 ?_
          rw [inB_congr hp.1.1]
          exact hinq
    · rw [if_neg hg] at h
      have hi := ih row col b b2 hok h
      refine ⟨hi.1, hi.2.1, hi.2.2.1, ?_⟩
      intro ij' hij' hinq
      rcases List.mem_cons.mp hij' with h1 | h1
      · subst h1
        exact absurd (by
          rw [hinq]
          simp [cellAt, hok.2.1 (row + ij'.1).toNat (col + ij'.2).toNat]) hg
      · exact hi.2.2.2 ij' h1 hinq

theorem revealF_cascade :
    ∀ (fuel : Nat) (b : Board) (row col : Int) (b' : Board) (res : Bool),
      StaticOK b → revealF fuel b row col = some (b', res) →
      FreshClosed b b' ∧ (inB b row col = true → revealedAt b' row col) := by
  intro fuel
  induction fuel with
  | zero => intro b row col b' res _ h; simp [revealF] at h
  | succ fuel ih =>
    intro b row col b' res hok h
    simp only [revealF] at h
    cases hgB : (!(inB b row col) || (cellAt b row col).is_revealed ||
        (cellAt b row col).is_flagged) with
    | true =>
      rw [if_pos hgB] at h
      simp at h
      rw [← h.1]
      refine ⟨freshClosed_refl b, fun hin => ?_⟩
      have hflag : (cellAt b row col).is_flagged = false := hok.2.1 _ _
      simp [hin, hflag] at hgB
      exact hgB
    | false =>
      rw [if_neg (by simp [hgB])] at h
      obtain ⟨hin, hrev, hflag⟩ := revealF_guard_components hgB
      obtain ⟨hr0, hc0, hrn, hcn⟩ := inB_dest hin
      have hj : col.toNat < (b.getD row.toNat []).length := by
        rw [hok.1 _ hrn]
        exact hcn
      have hsp := setRevealed_props hin hflag
      set b1 := setCell b row col (fun c => { c with is_revealed := true }) with hb1
      have hok1 : StaticOK b1 := staticOK_congr hok hsp.1
      have htarget : revealedAt b1 row col := by
        show (cellN (setCellN b row.toNat col.toNat
          (fun c => { c with is_revealed := true })) row.toNat col.toNat).is_revealed = true
        rw [cellN_setCellN_self _ hrn hj]
      have hcellNe : ∀ (r c : Int), ¬(row.toNat = r.toNat ∧ col.toNat = c.toNat) →
          cellAt b1 r c = cellAt b r c := by
        intro r c hne
        show cellN (setCellN b row.toNat col.toNat _) r.toNat c.toNat = cellN b r.toNat c.toNat
        exact cellN_setCellN_ne _ hne
      have hcount1 : (cellAt b1 row col).adjacent_mines = (cellAt b row col).adjacent_mines :=
        (hsp.1.2 row.toNat col.toNat).2.2
      have hmine1 : (cellAt b1 row col).is_mine = (cellAt b row col).is_mine :=
        (hsp.1.2 row.toNat col.toNat).1
      by_cases hmine : (cellAt b1 row col).is_mine = true
      · rw [if_pos hmine] at h
        simp at h
        rw [← h.1]
        refine ⟨?_, fun _ => htarget⟩
        intro r c hinp hrevp hnrevp hzerop ij hij hinq
        by_cases hpq : row.toNat = r.toNat ∧ col.toNat = c.toNat
        · obtain ⟨hpr, hpc⟩ := inB_dest hinp
          have hre : row = r ∧ col = c := by omega
          have hzb : (cellAt b row col).adjacent_mines = 0 := by
            rw [hre.1, hre.2]
            exact hzerop
          have hnm : (cellAt b row col).is_mine = false := hok.2.2 _ _ hzb
          rw [hmine1, hnm] at hmine
          exact absurd hmine (by simp)
        · have hrevp2 : (cellAt b1 r c).is_revealed = true := hrevp
          rw [hcellNe r c hpq, hnrevp] at hrevp2
          exact Bool.noConfusion hrevp2
      · rw [if_neg hmine] at h
        have hcf : (countFlagged b1 row col : Int) = 0 := by
          rw [countFlagged_zero hok1.2.1]
          rfl
        by_cases hz0 : (cellAt b1 row col).adjacent_mines = 0
        · -- zero-count target: both cascades run
          have hcc : (countFlagged b1 row col : Int) = (cellAt b1 row col).adjacent_mines := by
            rw [hcf, hz0]
          rw [if_pos hcc] at h
          cases hch : chordLoop (revealF fuel) row col offsetsList b1 with
          | none => simp [hch] at h
          | some b2 =>
            simp only [hch] at h
            have hcl := chordLoop_cascade
              (fun bb r c bb' rr hcall => revealF_props fuel bb r c bb' rr hcall)
              (fun bb r c bb' rr hbok hcall => ih bb r c bb' rr hbok hcall)
              offsetsList row col b1 b2 hok1 hch
            have hok2 : StaticOK b2 := staticOK_congr hok1 hcl.2.2.1
            have hz2 : (cellAt b2 row col).adjacent_mines = 0 := by
              show (cellN b2 row.toNat col.toNat).adjacent_mines = 0
              rw [(hcl.2.2.1.2 row.toNat col.toNat).2.2]
              exact hz0
            rw [if_pos hz2] at h
            cases hzl : zeroLoop (revealF fuel) row col offsetsList b2 with
            | none => simp [hzl] at h
            | some b3 =>
              simp only [hzl] at h
              simp at h
              have hzlc := zeroLoop_cascade
                (fun bb r c bb' rr hcall => revealF_props fuel bb r c bb' rr hcall)
                (fun bb r c bb' rr hbok hcall => ih bb r c bb' rr hbok hcall)
                offsetsList row col b2 b3 hok2 hzl
              rw [← h.1]
              have hfc1 : FreshClosed b1 b3 :=
                freshClosed_trans hcl.2.2.1 hcl.1 hzlc.1 hzlc.2.1
              have hmono13 : RevealMono b1 b3 := revealMono_trans hcl.2.1 hzlc.2.1
              refine ⟨?_, fun _ => hmono13 _ _ htarget⟩
              intro r c hinp hrevp hnrevp hzerop ij hij hinq
              by_cases hpq : row.toNat = r.toNat ∧ col.toNat = c.toNat
              · obtain ⟨hpr, hpc⟩ := inB_dest hinp
                have hre : row = r ∧ col = c := by omega
                rw [← hre.1, ← hre.2] at hinq ⊢
                have hinq2 : inB b2 (row + ij.1) (col + ij.2) = true := by
                  rw [inB_congr hcl.2.2.1.1, inB_congr hsp.1.1]
                  exact hinq
                exact hzlc.2.2.2 ij hij hinq2
              · have hrevp1 : (cellAt b1 r c).is_revealed = false := by
                  rw [hcellNe r c hpq]
                  exact hnrevp
                have hinp1 : inB b1 r c = true := by
                  rw [inB_congr hsp.1.1]
                  exact hinp
                have hzerop1 : (cellAt b1 r c).adjacent_mines = 0 := by
                  rw [hcellNe r c hpq]
                  exact hzerop
                have hinq1 : inB b1 (r + ij.1) (c + ij.2) = true := by
                  rw [inB_congr hsp.1.1]
                  exact hinq
                exact hfc1 r c hinp1 hrevp hrevp1 hzerop1 ij hij hinq1
        · -- nonzero target: no flags means no chord, and no zero cascade
          have hcc : ¬((countFlagged b1 row col : Int) = (cellAt b1 row col).adjacent_mines) := by
            rw [hcf]
            intro hcontra
            exact hz0 hcontra.symm
          rw [if_neg hcc] at h
          simp only at h
          rw [if_neg hz0] at h
          simp at h
          rw [← h.1]
          refine ⟨?_, fun _ => htarget⟩
          intro r c hinp hrevp hnrevp hzerop ij hij hinq
          by_cases hpq : row.toNat = r.toNat ∧ col.toNat = c.toNat
          · obtain ⟨hpr, hpc⟩ := inB_dest hinp
            have hre : row = r ∧ col = c := by omega
            rw [← hre.1, ← hre.2] at hzerop
            rw [hcount1] at hz0
            exact absurd hzerop hz0
          · have hrevp2 : (cellAt b1 r c).is_revealed = true := hrevp
            rw [hcellNe r c hpq, hnrevp] at hrevp2
            exact Bool.noConfusion hrevp2

theorem revealF_false_mine {fuel : Nat} {b : Board} {row col : Int} {b' : Board}
    (h : revealF fuel b row col = some (b', false)) :
    (cellAt b row col).is_mine = true := by
  cases fuel with
  | zero => simp [revealF] at h
  | succ fuel =>
    simp only [revealF] at h
    cases hgB : (!(inB b row col) || (cellAt b row col).is_revealed ||
        (cellAt b row col).is_flagged) with
    | true =>
      rw [if_pos hgB] at h
      simp at h
    | false =>
      rw [if_neg (by simp [hgB])] at h
      set b1 := setCell b row col (fun c => { c with is_revealed := true }) with hb1
      by_cases hmine : (cellAt b1 row col).is_mine = true
      · obtain ⟨hin, hrev, hflag⟩ := revealF_guard_components hgB
        have hst := (setRevealed_props hin hflag).1.2 row.toNat col.toNat
        show (cellN b row.toNat col.toNat).is_mine = true
        rw [← hst.1]
        exact hmine
      · rw [if_neg hmine] at h
        cases hch : (if (countFlagged b1 row col : Int) = (cellAt b1 row col).adjacent_mines
            then chordLoop (revealF fuel) row col offsetsList b1 else some b1) with
        | none => simp [hch] at h
        | some b2 =>
          simp only [hch] at h
          by_cases hz : (cellAt b2 row col).adjacent_mines = 0
          · rw [if_pos hz] at h
            cases hzl : zeroLoop (revealF fuel) row col offsetsList b2 with
            | none => simp [hzl] at h
            | some b3 =>
              simp only [hzl] at h
              simp at h
          · rw [if_neg hz] at h
            simp at h

/-! ## Claim theorems: the zero-cascade (C5) -/

/-- C5, amended.  On a non-empty rectangular board with no flags set, no cell
initially revealed, and no zero-count cell a mine, revealing an in-bounds
cell with zero adjacent mines succeeds and reveals at minimum the cell's
entire zero-connected region together with every in-bounds neighbor of a
region cell (in particular the numbered boundary). -/
theorem reveal_zero_cascade (b : Board) (row col : Int)
    (hrect : Rect b) (hnf : NoFlags b) (hnr : NoRevealed b) (hzm : ZeroNonMine b)
    (hin : inB b row col = true)
    (hzero : (cellAt b row col).adjacent_mines = 0) :
    ∃ b', reveal_cell b row col = some (b', true) ∧
      ∀ p : Int × Int, zeroRegion b (row, col) p →
        revealedAt b' p.1 p.2 ∧
        ∀ ij ∈ offsetsList, inB b (p.1 + ij.1) (p.2 + ij.2) = true →
          revealedAt b' (p.1 + ij.1) (p.2 + ij.2) := by
  have hok : StaticOK b :=
    ⟨rectN_of_rect hrect, noFlagsN_of_noFlags hnf, zeroNonMineN_of_zeroNonMine hzm⟩
  have hnrN : NoRevealedN b := noRevealedN_of_noRevealed hnr
  have hne := revealF_noExhaust (unrevealedCount b + 1) b row col hok.1 (Nat.lt_succ_self _)
  rcases Option.ne_none_iff_exists'.mp hne with ⟨⟨b', res⟩, hrun⟩
  have hres : res = true := by
    cases res with
    | true => rfl
    | false =>
      have hm := revealF_false_mine hrun
      have hnm : (cellAt b row col).is_mine = false := hok.2.2 row.toNat col.toNat hzero
      rw [hm] at hnm
      exact Bool.noConfusion hnm
  subst hres
  have hcasc := revealF_cascade (unrevealedCount b + 1) b row col b' true hok hrun
  refine ⟨b', hrun, ?_⟩
  intro p hreach
  induction hreach with
  | refl =>
    refine ⟨hcasc.2 hin, ?_⟩
    intro ij hij hinq
    exact hcasc.1 row col hin (hcasc.2 hin) (hnrN _ _) hzero ij hij hinq
  | tail hab hstep ih =>
    rename_i q p'
    obtain ⟨hzq, hzp, ij0, hij0, hpe⟩ := hstep
    subst hpe
    have hinp2 : inB b (q.1 + ij0.1) (q.2 + ij0.2) = true := hzp.1
    have hrevp : revealedAt b' (q.1 + ij0.1) (q.2 + ij0.2) := ih.2 ij0 hij0 hinp2
    refine ⟨hrevp, ?_⟩
    intro ij hij hinq
    exact hcasc.1 _ _ hzp.1 hrevp (hnrN _ _) hzp.2 ij hij hinq

/-- C5 counterexample: on boards allowed by the claim as stated (non-empty,
rectangular, no flags, start cell with zero adjacent mines), the cascade does
not reach the whole zero-connected region — an already-revealed zero cell
blocks it, and so does a zero-count mine on a fresh board. -/
theorem reveal_zero_cascade_counterexample :
    (Rect blockedBoard ∧ NoFlags blockedBoard ∧ inB blockedBoard 0 0 = true ∧
      (cellAt blockedBoard 0 0).adjacent_mines = 0 ∧
      zeroRegion blockedBoard (0, 0) (0, 2) ∧
      (reveal_cell blockedBoard 0 0).map (fun p => (cellAt p.1 0 2).is_revealed) =
        some false) ∧
    (Rect zeroMineBoard ∧ NoFlags zeroMineBoard ∧ NoRevealed zeroMineBoard ∧
      inB zeroMineBoard 0 0 = true ∧
      (cellAt zeroMineBoard 0 0).adjacent_mines = 0 ∧
      zeroRegion zeroMineBoard (0, 0) (0, 2) ∧
      (reveal_cell zeroMineBoard 0 0).map (fun p => (cellAt p.1 0 2).is_revealed) =
        some false) := by
  constructor
  · refine ⟨by decide, by decide, by decide, by decide, ?_, by decide⟩
    have s1 : zeroStep blockedBoard (0, 0) (0, 1) :=
      ⟨⟨by decide, by decide⟩, ⟨by decide, by decide⟩, (0, 1), by decide, by decide⟩
    have s2 : zeroStep blockedBoard (0, 1) (0, 2) :=
      ⟨⟨by decide, by decide⟩, ⟨by decide, by decide⟩, (0, 1), by decide, by decide⟩
    exact Relation.ReflTransGen.tail
      (Relation.ReflTransGen.tail Relation.ReflTransGen.refl s1) s2
  · refine ⟨by decide, by decide, by decide, by decide, by decide, ?_, by decide⟩
    have s1 : zeroStep zeroMineBoard (0, 0) (0, 1) :=
      ⟨⟨by decide, by decide⟩, ⟨by decide, by decide⟩, (0, 1), by decide, by decide⟩
    have s2 : zeroStep zeroMineBoard (0, 1) (0, 2) :=
      ⟨⟨by decide, by decide⟩, ⟨by decide, by decide⟩, (0, 1), by decide, by decide⟩
    exact Relation.ReflTransGen.tail
      (Relation.ReflTransGen.tail Relation.ReflTransGen.refl s1) s2

/-- Witness for the amended C5 on a fresh all-zero 2 by 2 board: revealing
(0,0) reveals the diagonal cell (1,1). -/
theorem reveal_zero_cascade_witness :
    ∃ b', reveal_cell freshZeroBoard 0 0 = some (b', true) ∧ revealedAt b' 1 1 := by
  obtain ⟨b', h1, h2⟩ := reveal_zero_cascade freshZeroBoard 0 0
    (by decide) (by decide) (by decide) (by decide) (by decide) (by decide)
  have s1 : zeroStep freshZeroBoard (0, 0) (1, 1) :=
    ⟨⟨by decide, by decide⟩, ⟨by decide, by decide⟩, (1, 1), by decide, by decide⟩
  have hreach : zeroRegion freshZeroBoard (0, 0) (1, 1) :=
    Relation.ReflTransGen.tail Relation.ReflTransGen.refl s1
  exact ⟨b', h1, (h2 (1, 1) hreach).1⟩

/-! ## Claim theorems: chord loss, win condition, out-of-bounds (C6, C9, C10) -/

/-- C6 (code bug).  On the chord-loss board, revealing the safe cell (0,0)
chords through the wrong flag and reveals the mine at (1,1), yet the
top-level `reveal_cell` call returns true: the recursive calls' return
values are discarded, so the loss is never reported (the function's own
documentation promises "false if a mine was hit"). -/
theorem reveal_cell_swallows_chord_loss :
    (cellAt chordLossBoard 1 1).is_mine = true ∧
    (cellAt chordLossBoard 1 1).is_revealed = false ∧
    (reveal_cell chordLossBoard 0 0).map Prod.snd = some true ∧
    (reveal_cell chordLossBoard 0 0).map (fun p => (cellAt p.1 1 1).is_revealed) =
      some true := by
  refine ⟨by decide, by decide, by decide, by decide⟩

/-- C9.  `field_clear` returns true exactly when every cell is a flagged
mine or a revealed non-mine; in particular a board with every non-mine
revealed but a mine unflagged is not clear. -/
theorem field_clear_iff_cells :
    (∀ b : Board, field_clear b = true ↔
      ∀ row ∈ b, ∀ c ∈ row, (c.is_mine = true ∧ c.is_flagged = true) ∨
        (c.is_mine = false ∧ c.is_revealed = true)) ∧
    ((∀ row ∈ unflaggedWinBoard, ∀ c ∈ row, c.is_mine = false → c.is_revealed = true) ∧
      field_clear unflaggedWinBoard = false) := by
  constructor
  · intro b
    simp only [field_clear, List.all_eq_true, Bool.or_eq_true, Bool.and_eq_true,
      Bool.not_eq_true']
  · exact ⟨by decide, by decide⟩

/-- C10.  On a non-empty rectangular board, every out-of-bounds coordinate
pair makes the cell operations no-ops: `reveal_cell` returns true with the
board unchanged, and `toggle_flag_cell` and `flag_cell` leave the board
unchanged. -/
theorem oob_cell_ops_noop (b : Board) (row col : Int)
    (hne : b ≠ []) (hrect : Rect b) (hoob : inB b row col = false) :
    reveal_cell b row col = some (b, true) ∧
    toggle_flag_cell b row col = b ∧ flag_cell b row col = b := by
  refine ⟨?_, ?_, ?_⟩
  · show revealF (unrevealedCount b + 1) b row col = some (b, true)
    simp only [revealF]
    rw [if_pos (by simp [hoob])]
  · rw [toggle_flag_cell, if_neg (by simp [hoob])]
  · rw [flag_cell, if_neg (by simp [hoob])]

/-- Witness for C10 at a concrete 1 by 1 board and the out-of-bounds
coordinates (5, 0). -/
theorem oob_cell_ops_noop_witness :
    reveal_cell [[n1Cell]] 5 0 = some ([[n1Cell]], true) ∧
    toggle_flag_cell [[n1Cell]] 5 0 = [[n1Cell]] ∧ flag_cell [[n1Cell]] 5 0 = [[n1Cell]] :=
  oob_cell_ops_noop [[n1Cell]] 5 0 (by decide) (by decide) (by decide)

/-! ## Lemmas: the revealed-xor-flagged invariant (C7) -/

theorem mem_getD_of_mem {α : Type} {l : List α} {a : α} (d : α) (h : a ∈ l) :
    ∃ n, n < l.length ∧ l.getD n d = a := by
  induction l with
  | nil => simp at h
  | cons x xs ih =>
    rcases List.mem_cons.mp h with h1 | h1
    · exact ⟨0, by simp, by simp [h1.symm]⟩
    · rcases ih h1 with ⟨n, hn, he⟩
      exact ⟨n + 1, by simpa using hn, by simpa using he⟩

theorem noRFN_of_noRF {b : Board} (h : NoRevealedFlagged b) : NoRFN b := by
  intro i j hc
  by_cases hin : i < b.length ∧ j < (b.getD i []).length
  · exact h _ (getD_mem hin.1) _ (getD_mem hin.2) hc
  · rw [cellN_oob hin] at hc
    simp [defaultCell] at hc

theorem noRF_of_noRFN {b : Board} (h : NoRFN b) : NoRevealedFlagged b := by
  intro row hrow c hc
  rcases mem_getD_of_mem [] hrow with ⟨i, hi, hie⟩
  rcases mem_getD_of_mem defaultCell hc with ⟨j, hj, hje⟩
  have : cellN b i j = c := by
    rw [cellN, hie, hje]
  rw [← this]
  exact h i j

theorem noRFN_congr {b b' : Board} (h : NoRFN b) (hs : StaticEq b b')
    (hn : NewRevealedUnflagged b b') : NoRFN b' := by
  intro i j hc
  rw [(hs.2 i j).2.1] at hc
  rcases hn i j hc.1 with h1 | h1
  · exact h i j ⟨h1, hc.2⟩
  · rw [h1] at hc
    exact Bool.noConfusion hc.2

theorem noRFN_reveal {b : Board} {row col : Int} {b' : Board} {res : Bool}
    (h : reveal_cell b row col = some (b', res)) (hn : NoRFN b) : NoRFN b' := by
  have hp := revealF_props _ b row col b' res h
  exact noRFN_congr hn hp.1 hp.2.2.2

theorem noRFN_setFlag {b : Board} {row col : Int} {f : Cell → Cell}
    (hrev_pres : ∀ c, (f c).is_revealed = c.is_revealed)
    (h : NoRFN b) (hguard : (cellAt b row col).is_revealed = false) :
    NoRFN (setCell b row col f) := by
  intro i j hc
  simp only [setCell] at hc
  by_cases hij : row.toNat = i ∧ col.toNat = j
  · obtain ⟨rfl, rfl⟩ := hij
    by_cases hin : row.toNat < b.length ∧ col.toNat < (b.getD row.toNat []).length
    · rw [cellN_setCellN_self f hin.1 hin.2, hrev_pres] at hc
      have : (cellAt b row col).is_revealed = true := hc.1
      rw [hguard] at this
      exact Bool.noConfusion this
    · have hsh := map_len_setCellN b row.toNat col.toNat f
      have hoob2 : ¬(row.toNat < (setCellN b row.toNat col.toNat f).length ∧
          col.toNat < ((setCellN b row.toNat col.toNat f).getD row.toNat []).length) := by
        rw [rowLens_length hsh, rowLens_getD hsh]
        exact hin
      rw [cellN_oob hoob2] at hc
      simp [defaultCell] at hc
  · rw [cellN_setCellN_ne f hij] at hc
    exact h i j hc

theorem noRFN_toggle (b : Board) (row col : Int) (h : NoRFN b) :
    NoRFN (toggle_flag_cell b row col) := by
  unfold toggle_flag_cell
  by_cases hg : inB b row col && !(cellAt b row col).is_revealed
  · rw [if_pos hg]
    rw [Bool.and_eq_true] at hg
    refine noRFN_setFlag (fun c => rfl) h ?_
    have := hg.2
    cases hx : (cellAt b row col).is_revealed
    · rfl
    · rw [hx] at this
      exact Bool.noConfusion this
  · rw [if_neg hg]
    exact h

theorem noRFN_flag (b : Board) (row col : Int) (h : NoRFN b) :
    NoRFN (flag_cell b row col) := by
  unfold flag_cell
  by_cases hg : inB b row col && !(cellAt b row col).is_revealed
  · rw [if_pos hg]
    rw [Bool.and_eq_true] at hg
    refine noRFN_setFlag (fun c => rfl) h ?_
    have := hg.2
    cases hx : (cellAt b row col).is_revealed
    · rfl
    · rw [hx] at this
      exact Bool.noConfusion this
  · rw [if_neg hg]
    exact h

theorem noRFN_flagAdjLoop (row col : Int) :
    ∀ (l : List (Int × Int)) (b : Board), NoRFN b → NoRFN (flagAdjLoop row col l b) := by
  intro l
  induction l with
  | nil => intro b h; exact h
  | cons ij rest ih =>
    intro b h
    exact ih _ (noRFN_flag b _ _ h)

theorem noRFN_revealAdjLoop (row col : Int) :
    ∀ (l : List (Int × Int)) (b b' : Board) (res : Bool), NoRFN b →
      revealAdjLoop row col l b = some (b', res) → NoRFN b' := by
  intro l
  induction l with
  | nil =>
    intro b b' res h he
    simp [revealAdjLoop] at he
    rw [← he.1]
    exact h
  | cons ij rest ih =>
    intro b b' res h he
    simp only [revealAdjLoop] at he
    cases hcall : reveal_cell b (row + ij.1) (col + ij.2) with
    | none => simp [hcall] at he
    | some p =>
      obtain ⟨b1, r1⟩ := p
      have h1 := noRFN_reveal hcall h
      cases r1 with
      | false =>
        simp only [hcall] at he
        simp at he
        rw [← he.1]
        exact h1
      | true =>
        simp only [hcall] at he
        exact ih b1 b' res h1 he

/-- C7.  Every sequence of the public board operations preserves the
invariant that no cell is simultaneously revealed and flagged. -/
theorem ops_preserve_revealed_xor_flagged (ops : List GameOp) (b : Board)
    (h : NoRevealedFlagged b) : NoRevealedFlagged (applyOps b ops) := by
  refine noRF_of_noRFN ?_
  have hn := noRFN_of_noRF h
  clear h
  induction ops generalizing b with
  | nil => exact hn
  | cons op rest ih =>
    refine ih _ ?_
    cases op with
    | reveal row col =>
      show NoRFN (applyOp b (GameOp.reveal row col))
      simp only [applyOp]
      cases hcall : reveal_cell b row col with
      | none => exact hn
      | some p =>
        obtain ⟨b1, r1⟩ := p
        exact noRFN_reveal hcall hn
    | revealAdjacent row col =>
      show NoRFN (applyOp b (GameOp.revealAdjacent row col))
      simp only [applyOp]
      cases hcall : reveal_adjacent_cells b row col with
      | none => exact hn
      | some p =>
        obtain ⟨b1, r1⟩ := p
        exact noRFN_revealAdjLoop row col offsetsList b b1 r1 hn hcall
    | toggleFlag row col => exact noRFN_toggle b row col hn
    | flag row col => exact noRFN_flag b row col hn
    | flagAdjacent row col => exact noRFN_flagAdjLoop row col offsetsList b hn

/-- Witness for C7: a concrete operation sequence on a concrete board keeps
the invariant. -/
theorem ops_preserve_revealed_xor_flagged_witness :
    NoRevealedFlagged (applyOps opsBoard wOps) :=
  ops_preserve_revealed_xor_flagged wOps opsBoard (by decide)
